import Mathlib

/-!
Verification development for the planner-logger repository.

The Python sources are shallowly embedded as executable Lean definitions:

* time_helper.py : duration / clock-time parsing and formatting
  (parse_duration, duration_str, parse_time, time_diff);
* logger.py : LogItem and its duration computation;
* planner_logger.py : TwoStagePlanItem, ContinuingLogItem, the
  linked-list reconciliation pass PlannerLoggerController.update_link,
  the undo/redo operations and the persisted JSON shape of save.

Python floats are modelled by exact rationals (the values manipulated by
the program are small integral second counts, where IEEE doubles are
exact); Python object identity of mutable TwoStagePlanItem objects is
modelled by indices into an explicit heap list, and copy.copy by
appending a fresh cell with the same contents.
-/

namespace PlannerLogger

/-! ## Python string helpers -/

/-- Whitespace stripped by Python str.strip (the ASCII whitespace
characters; unicode spaces are not modelled). -/
def pyIsSpace (c : Char) : Bool :=
  c = ' ' ∨ c = '\t' ∨ c = '\n' ∨ c = '\r' ∨ c.toNat = 11 ∨ c.toNat = 12

/-- Python str.strip on a character list. -/
def pyStrip (l : List Char) : List Char :=
  ((l.dropWhile pyIsSpace).reverse.dropWhile pyIsSpace).reverse

/-- Python str.split with a one-character separator given by the
predicate p: "".split(sep) is [""], separators at the ends produce empty
pieces. -/
def pySplitP (p : Char → Bool) : List Char → List (List Char)
  | [] => [[]]
  | c :: cs =>
    match pySplitP p cs with
    | [] => [[]]
    | h :: t => if p c then [] :: h :: t else (c :: h) :: t

theorem pySplitP_ne_nil (p : Char → Bool) (l : List Char) : pySplitP p l ≠ [] := by
  cases l with
  | nil => simp [pySplitP]
  | cons c cs =>
    simp only [pySplitP]
    rcases h : pySplitP p cs with _ | ⟨hd, tl⟩
    · simp
    · by_cases hc : p c <;> simp [hc]

theorem pySplitP_eq_single (p : Char → Bool) (l : List Char)
    (h : ∀ c ∈ l, p c = false) : pySplitP p l = [l] := by
  induction l with
  | nil => rfl
  | cons c cs ih =>
    have hc : p c = false := h c (List.mem_cons_self c cs)
    have := ih (fun x hx => h x (List.mem_cons_of_mem c hx))
    simp [pySplitP, this, hc]

theorem pySplitP_append (p : Char → Bool) (a b : List Char) (c : Char)
    (ha : ∀ x ∈ a, p x = false) (hc : p c = true) :
    pySplitP p (a ++ c :: b) = a :: pySplitP p b := by
  induction a with
  | nil =>
    simp only [List.nil_append, pySplitP]
    rcases h : pySplitP p b with _ | ⟨hd, tl⟩
    · exact absurd h (pySplitP_ne_nil p b)
    · simp [hc]
  | cons x xs ih =>
    have hx : p x = false := ha x (List.mem_cons_self x xs)
    have ih2 := ih (fun y hy => ha y (List.mem_cons_of_mem x hy))
    simp only [List.cons_append, pySplitP, List.append_eq]
    rw [ih2]
    simp [hx]

/-! ## Digits and decimal numerals -/

/-- Numeric value of a digit character. -/
def digitVal (c : Char) : ℕ := c.toNat - 48

/-- Value of a big-endian digit string. -/
def digitsToNat (l : List Char) : ℕ := l.foldl (fun a c => 10 * a + digitVal c) 0

/-- Parse a non-empty all-digit string to a natural number, the numeric
core shared by the float model and the strptime model. -/
def parseDigits (l : List Char) : Option ℕ :=
  if l ≠ [] ∧ l.all Char.isDigit then some (digitsToNat l) else none

/-- Decimal digit character for a digit value. -/
def digitChar (d : ℕ) : Char :=
  match d with
  | 0 => '0' | 1 => '1' | 2 => '2' | 3 => '3' | 4 => '4'
  | 5 => '5' | 6 => '6' | 7 => '7' | 8 => '8' | _ => '9'

/-- Model of Python "{:d}".format on a non-negative integer: the usual
decimal numeral, most significant digit first. -/
def decimalRepr (n : ℕ) : List Char :=
  if n = 0 then ['0'] else ((Nat.digits 10 n).map digitChar).reverse

/-! ## Python float(): time_helper relies on the builtin float parser.
The model below accepts an optionally signed decimal numeral with an
optional fractional part and an optional decimal exponent, evaluated
exactly in ℚ.  The inf/nan spellings and digit-group underscores are not
modelled. -/

def parseMantissa (l : List Char) : Option ℚ :=
  match pySplitP (fun c => c = '.') l with
  | [ip] => (parseDigits ip).map (fun n => (n : ℚ))
  | [ip, fp] =>
    if (ip ≠ [] ∨ fp ≠ []) ∧ ip.all Char.isDigit ∧ fp.all Char.isDigit then
      some ((digitsToNat ip : ℚ) + (digitsToNat fp : ℚ) / 10 ^ fp.length)
    else none
  | _ => none

def parseExp (l : List Char) : Option ℤ :=
  match l with
  | '+' :: r => (parseDigits r).map (fun n => (n : ℤ))
  | '-' :: r => (parseDigits r).map (fun n => -(n : ℤ))
  | r => (parseDigits r).map (fun n => (n : ℤ))

/-- Leading sign of a float literal: an optional single + or - before
the mantissa. -/
def floatSign : List Char → ℚ × List Char
  | [] => (1, [])
  | c :: r => if c = '+' then (1, r) else if c = '-' then (-1, r) else (1, c :: r)

/-- Model of the Python builtin float() applied to a string, returning
the exact rational value. -/
def pyFloat (l : List Char) : Option ℚ :=
  let sp := floatSign (pyStrip l)
  match pySplitP (fun c => c = 'e' ∨ c = 'E') sp.2 with
  | [mant] => (parseMantissa mant).map (fun m => sp.1 * m)
  | [mant, ex] =>
    match parseMantissa mant, parseExp ex with
    | some m, some e => some (sp.1 * m * (10 : ℚ) ^ e)
    | _, _ => none
  | _ => none

/-! ## time_helper.parse_duration -/

/-- Day component of parse_duration: positive_part.split("d"),
float(days[0]) when the split has exactly two pieces, None otherwise or
on a float failure. -/
def dayNumber (positive_part : List Char) : Option ℚ :=
  let days := pySplitP (fun c => c = 'd') positive_part
  if days.length = 2 then pyFloat days.headI else none

/-- Hour component of parse_duration, taken from days[-1].split("h"). -/
def hourNumber (positive_part : List Char) : Option ℚ :=
  let days := pySplitP (fun c => c = 'd') positive_part
  let hours := pySplitP (fun c => c = 'h') (days.getLastD [])
  if hours.length = 2 then pyFloat hours.headI else none

/-- Minute component of parse_duration, taken from hours[-1].split("m");
a piece with no "m" suffix is read as minutes. -/
def minuteNumber (positive_part : List Char) : Option ℚ :=
  let days := pySplitP (fun c => c = 'd') positive_part
  let hours := pySplitP (fun c => c = 'h') (days.getLastD [])
  let minutes := pySplitP (fun c => c = 'm') (hours.getLastD [])
  if minutes.length = 1 ∨ minutes.length = 2 then pyFloat minutes.headI else none

/-- Python test len(time_string) >= 1 and time_string[0] == "-". -/
def hasNegSign : List Char → Bool
  | [] => false
  | c :: _ => c = '-'

/-- Python positive_part: the string with one leading - removed. -/
def positivePart : List Char → List Char
  | [] => []
  | c :: r => if c = '-' then r else c :: r

/-- time_helper.parse_duration: parse a duration such as "2h30m" into
seconds; returns none when no component parses. -/
def parse_duration (time_string : String) : Option ℚ :=
  let cs := time_string.data
  let sign : ℚ := if hasNegSign cs then -1 else 1
  let pp := positivePart cs
  if dayNumber pp = none ∧ hourNumber pp = none ∧ minuteNumber pp = none then
    none
  else
    some (sign * (((dayNumber pp).getD 0) * 86400 + ((hourNumber pp).getD 0) * 3600
      + ((minuteNumber pp).getD 0) * 60))

/-! ## time_helper.duration_str -/

/-- Inner positive_time of time_helper.duration_str: successive divmod
by 86400, 3600 and 60, printing "DdHhM", "HhM" or "M" as the leading
components vanish. -/
def positive_time (positive_seconds : ℚ) : List Char :=
  let days : ℤ := ⌊positive_seconds / 86400⌋
  let left : ℚ := positive_seconds - 86400 * days
  let hours : ℤ := ⌊left / 3600⌋
  let left2 : ℚ := left - 3600 * hours
  let minutes : ℤ := ⌊left2 / 60⌋
  if days ≠ 0 then
    decimalRepr days.toNat ++ 'd' :: (decimalRepr hours.toNat ++ 'h' :: decimalRepr minutes.toNat)
  else if hours ≠ 0 then
    decimalRepr hours.toNat ++ 'h' :: decimalRepr minutes.toNat
  else
    decimalRepr minutes.toNat

/-- time_helper.duration_str. -/
def duration_str (seconds : ℚ) : String :=
  if 0 ≤ seconds then ⟨positive_time seconds⟩
  else ⟨'-' :: positive_time (-seconds)⟩

/-! ## time_helper.parse_time and time_diff -/

/-- time_helper.parse_time: strict strptime "%H:%M" parse after strip.
The strptime regex accepts one or two digit hour and minute fields, in
range, with the whole string consumed; the result is the pair (hour,
minute). -/
def parse_time (time_string : String) : Option (ℕ × ℕ) :=
  let t := pyStrip time_string.data
  let hd := t.takeWhile Char.isDigit
  match t.dropWhile Char.isDigit with
  | ':' :: ms =>
    if (hd.length = 1 ∨ hd.length = 2) ∧ digitsToNat hd ≤ 23
        ∧ (ms.length = 1 ∨ ms.length = 2) ∧ ms.all Char.isDigit ∧ digitsToNat ms ≤ 59 then
      some (digitsToNat hd, digitsToNat ms)
    else none
  | _ => none

/-- time_helper.time_diff: both times are anchored to one common date,
so the difference is the signed difference of their second counts. -/
def time_diff (time1 time2 : ℕ × ℕ) : ℚ :=
  ((3600 * time1.1 + 60 * time1.2 : ℤ) : ℚ) - ((3600 * time2.1 + 60 * time2.2 : ℤ) : ℚ)

/-! ## logger.LogItem -/

/-- logger.LogItem: the constructor parses the start and end strings
once with parse_time (the field end is renamed fin, end being a Lean
keyword). -/
structure LogItem where
  name : String
  start : Option (ℕ × ℕ)
  fin : Option (ℕ × ℕ)
  is_marked : Bool
deriving DecidableEq, Repr, Inhabited

/-- logger.LogItem.__init__ from the raw strings. -/
def LogItem.ofStrings (name start_str end_str : String) (is_marked : Bool) : LogItem :=
  ⟨name, parse_time start_str, parse_time end_str, is_marked⟩

/-- logger.LogItem.duration: end minus start when both are present, 0
otherwise; a negative value (crossing midnight) gets one day added. -/
def LogItem.duration (item : LogItem) : ℚ :=
  match item.start, item.fin with
  | some s, some e =>
    let d := time_diff e s
    if 0 ≤ d then d else d + 86400
  | _, _ => 0

/-- Duration of an entry given directly by its start and end strings, as
computed by a LogItem built from them. -/
def durationOf (start_str end_str : String) : ℚ :=
  (LogItem.ofStrings "" start_str end_str false).duration

/-! ## Digit string lemmas -/

/-- The ten decimal digit characters. -/
def tenDigits : List Char := ['0', '1', '2', '3', '4', '5', '6', '7', '8', '9']

theorem tenDigits_isDigit : ∀ c ∈ tenDigits, Char.isDigit c = true := by decide

theorem tenDigits_notSpace : ∀ c ∈ tenDigits, pyIsSpace c = false := by decide

theorem tenDigits_ne : ∀ c ∈ tenDigits,
    c ≠ 'd' ∧ c ≠ 'h' ∧ c ≠ 'm' ∧ c ≠ '.' ∧ c ≠ 'e' ∧ c ≠ 'E' ∧ c ≠ '+' ∧ c ≠ '-' := by
  decide

theorem digitChar_mem (d : ℕ) : digitChar d ∈ tenDigits := by
  unfold digitChar
  split <;> decide

theorem digitVal_digitChar {d : ℕ} (h : d < 10) : digitVal (digitChar d) = d := by
  interval_cases d <;> rfl

theorem decimalRepr_mem {n : ℕ} {c : Char} (h : c ∈ decimalRepr n) : c ∈ tenDigits := by
  unfold decimalRepr at h
  split at h
  · simp only [List.mem_singleton] at h
    subst h; decide
  · rw [List.mem_reverse, List.mem_map] at h
    obtain ⟨d, _, rfl⟩ := h
    exact digitChar_mem d

theorem decimalRepr_ne_nil (n : ℕ) : decimalRepr n ≠ [] := by
  unfold decimalRepr
  split
  · simp
  · simp [Nat.digits_ne_nil_iff_ne_zero, *]

theorem foldr_eq_ofDigits (ds : List ℕ) (h : ∀ d ∈ ds, d < 10) :
    List.foldr (fun d a => 10 * a + digitVal (digitChar d)) 0 ds = Nat.ofDigits 10 ds := by
  induction ds with
  | nil => rfl
  | cons d ds ih =>
    have hd : d < 10 := h d (List.mem_cons_self d ds)
    have ihe := ih (fun x hx => h x (List.mem_cons_of_mem d hx))
    simp only [List.foldr_cons, ihe, Nat.ofDigits_cons, digitVal_digitChar hd]
    ring

theorem digitsToNat_decimalRepr (n : ℕ) : digitsToNat (decimalRepr n) = n := by
  unfold decimalRepr digitsToNat
  split
  · subst n; rfl
  · rw [List.foldl_reverse, List.foldr_map]
    rw [foldr_eq_ofDigits _ (fun d hd => Nat.digits_lt_base (by norm_num) hd)]
    exact Nat.ofDigits_digits 10 n

theorem pyStrip_eq_self {l : List Char} (h : ∀ c ∈ l, pyIsSpace c = false) :
    pyStrip l = l := by
  have drop : ∀ m : List Char, (∀ c ∈ m, pyIsSpace c = false) → m.dropWhile pyIsSpace = m := by
    intro m hm
    cases m with
    | nil => rfl
    | cons c r =>
      rw [List.dropWhile_cons, hm c (List.mem_cons_self c r)]
      simp
  unfold pyStrip
  rw [drop l h, drop l.reverse (fun c hc => h c (List.mem_reverse.mp hc)), List.reverse_reverse]

theorem pyFloat_digits {l : List Char} (hne : l ≠ []) (hmem : ∀ c ∈ l, c ∈ tenDigits) :
    pyFloat l = some ((digitsToNat l : ℕ) : ℚ) := by
  have hstrip : pyStrip l = l :=
    pyStrip_eq_self (fun c hc => tenDigits_notSpace c (hmem c hc))
  have hsign : floatSign l = (1, l) := by
    rcases hrep : l with _ | ⟨c, r⟩
    · exact absurd hrep hne
    · have hc := tenDigits_ne c (hmem c (by rw [hrep]; exact List.mem_cons_self c r))
      simp [floatSign, hc.2.2.2.2.2.2.1, hc.2.2.2.2.2.2.2]
  have hsplitE : pySplitP (fun c => c = 'e' ∨ c = 'E') l = [l] := by
    refine pySplitP_eq_single _ _ (fun c hc => ?_)
    have h1 := (tenDigits_ne c (hmem c hc)).2.2.2.2.1
    have h2 := (tenDigits_ne c (hmem c hc)).2.2.2.2.2.1
    simp [h1, h2]
  have hsplitDot : pySplitP (fun c => c = '.') l = [l] := by
    refine pySplitP_eq_single _ _ (fun c hc => ?_)
    simp [(tenDigits_ne c (hmem c hc)).2.2.2.1]
  have hdigits : parseDigits l = some (digitsToNat l) := by
    unfold parseDigits
    rw [if_pos ⟨hne, List.all_eq_true.mpr (fun c hc => tenDigits_isDigit c (hmem c hc))⟩]
  simp only [pyFloat]
  rw [hstrip, hsign]
  simp only
  rw [hsplitE]
  simp only [parseMantissa, hsplitDot, hdigits, Option.map_some, one_mul]
  simp

theorem pyFloat_decimalRepr (m : ℕ) : pyFloat (decimalRepr m) = some (m : ℚ) := by
  rw [pyFloat_digits (decimalRepr_ne_nil m) (fun c hc => decimalRepr_mem hc),
    digitsToNat_decimalRepr]

/-! ## C5: malformed components of parse_duration -/

/-- C5 counterexample input: in "xd5m" the day component "x" is
malformed (float fails on it), yet the parse succeeds on the minute
component alone. -/
theorem parse_duration_partial_example :
    pyFloat ['x'] = none ∧ dayNumber ['x', 'd', '5', 'm'] = none ∧
      parse_duration (String.mk ['x', 'd', '5', 'm']) = some 300 := by
  refine ⟨by decide, by decide, ?_⟩
  have h5 : pyFloat ['5'] = some ((5 : ℕ) : ℚ) := by
    have hv : digitsToNat ['5'] = 5 := by decide
    rw [pyFloat_digits (by decide) (by decide), hv]
  have h1 : dayNumber (positivePart (String.mk ['x', 'd', '5', 'm']).data) = none := by decide
  have h2 : hourNumber (positivePart (String.mk ['x', 'd', '5', 'm']).data) = none := by decide
  have h3 : minuteNumber (positivePart (String.mk ['x', 'd', '5', 'm']).data)
      = some ((5 : ℕ) : ℚ) := by
    simp only [minuteNumber]
    have hd : pySplitP (fun c => c = 'd') (positivePart (String.mk ['x', 'd', '5', 'm']).data)
        = [['x'], ['5', 'm']] := by decide
    rw [hd]
    have hl : ([['x'], ['5', 'm']] : List (List Char)).getLastD [] = ['5', 'm'] := rfl
    rw [hl]
    have hh : pySplitP (fun c => c = 'h') ['5', 'm'] = [['5', 'm']] := by decide
    rw [hh]
    have hl2 : ([['5', 'm']] : List (List Char)).getLastD [] = ['5', 'm'] := rfl
    rw [hl2]
    have hmm : pySplitP (fun c => c = 'm') ['5', 'm'] = [['5'], []] := by decide
    rw [hmm]
    simp [h5]
  have hneg : hasNegSign (String.mk ['x', 'd', '5', 'm']).data = false := by decide
  simp only [parse_duration]
  rw [h1, h2, h3, hneg]
  norm_num
  exact fun hcon => absurd hcon (by simp)

/-- C5 (amended): parse_duration returns none exactly when all three of
the day, hour and minute components fail to parse; a malformed component
among successfully parsed ones is treated as absent (contributing zero)
rather than failing the whole parse. -/
theorem parse_duration_eq_none_iff (s : String) :
    parse_duration s = none ↔
      dayNumber (positivePart s.data) = none ∧ hourNumber (positivePart s.data) = none ∧
        minuteNumber (positivePart s.data) = none := by
  unfold parse_duration
  by_cases h : dayNumber (positivePart s.data) = none ∧ hourNumber (positivePart s.data) = none ∧
      minuteNumber (positivePart s.data) = none
  · simp [h]
  · simp [h]

/-! ## C6: round trip of whole-minute durations -/

theorem int_floor_eq_nat_floor {a : ℚ} (h : 0 ≤ a) : ⌊a⌋ = (⌊a⌋₊ : ℤ) := by
  rw [← Int.floor_toNat, Int.toNat_of_nonneg (Int.floor_nonneg.mpr h)]

theorem floor_nat_mul_div (a b : ℕ) (hb : 0 < b) :
    ⌊((a : ℚ) / (b : ℚ))⌋ = ((a / b : ℕ) : ℤ) := by
  have h0 : (0 : ℚ) ≤ (a : ℚ) / (b : ℚ) := by positivity
  rw [int_floor_eq_nat_floor h0, Nat.floor_div_nat, Nat.floor_natCast]

theorem positive_time_sixty (k : ℕ) :
    positive_time ((60 * k : ℕ) : ℚ) =
      if k / 1440 ≠ 0 then
        decimalRepr (k / 1440) ++ 'd' :: (decimalRepr (k % 1440 / 60) ++ 'h' :: decimalRepr (k % 60))
      else if k % 1440 / 60 ≠ 0 then
        decimalRepr (k % 1440 / 60) ++ 'h' :: decimalRepr (k % 60)
      else decimalRepr (k % 60) := by
  have hdays : ⌊((60 * k : ℕ) : ℚ) / 86400⌋ = ((k / 1440 : ℕ) : ℤ) := by
    have h1 : ((86400 : ℚ)) = ((86400 : ℕ) : ℚ) := by norm_num
    rw [h1, floor_nat_mul_div (60 * k) 86400 (by norm_num)]
    congr 1
    omega
  have hk : (k : ℚ) = 1440 * ((k / 1440 : ℕ) : ℚ) + ((k % 1440 : ℕ) : ℚ) := by
    exact_mod_cast (Nat.div_add_mod k 1440).symm
  have hleft : ((60 * k : ℕ) : ℚ) - 86400 * ((k / 1440 : ℕ) : ℚ)
      = ((60 * (k % 1440) : ℕ) : ℚ) := by
    push_cast
    linear_combination 60 * hk
  have hhours : ⌊((60 * (k % 1440) : ℕ) : ℚ) / 3600⌋ = ((k % 1440 / 60 : ℕ) : ℤ) := by
    have h1 : ((3600 : ℚ)) = ((3600 : ℕ) : ℚ) := by norm_num
    rw [h1, floor_nat_mul_div (60 * (k % 1440)) 3600 (by norm_num)]
    congr 1
    omega
  have hr : ((k % 1440 : ℕ) : ℚ) = 60 * ((k % 1440 / 60 : ℕ) : ℚ) + ((k % 60 : ℕ) : ℚ) := by
    exact_mod_cast (by omega : k % 1440 = 60 * (k % 1440 / 60) + k % 60)
  have hleft2 : ((60 * (k % 1440) : ℕ) : ℚ) - 3600 * ((k % 1440 / 60 : ℕ) : ℚ)
      = ((60 * (k % 60) : ℕ) : ℚ) := by
    push_cast
    linear_combination 60 * hr
  have hmins : ⌊((60 * (k % 60) : ℕ) : ℚ) / 60⌋ = ((k % 60 : ℕ) : ℤ) := by
    have h1 : ((60 : ℚ)) = ((60 : ℕ) : ℚ) := by norm_num
    rw [h1, floor_nat_mul_div (60 * (k % 60)) 60 (by norm_num)]
    congr 1
    omega
  unfold positive_time
  rw [hdays]
  simp only [Int.cast_natCast]
  rw [hleft, hhours]
  simp only [Int.cast_natCast]
  rw [hleft2, hmins]
  simp only [Int.toNat_natCast, ne_eq, Int.natCast_eq_zero]

theorem parse_duration_of_digits_dhm (D H M : ℕ) :
    parse_duration ⟨decimalRepr D ++ 'd' :: (decimalRepr H ++ 'h' :: decimalRepr M)⟩
      = some ((D : ℚ) * 86400 + (H : ℚ) * 3600 + (M : ℚ) * 60) := by
  have memD := fun c hc => decimalRepr_mem (n := D) (c := c) hc
  have memH := fun c hc => decimalRepr_mem (n := H) (c := c) hc
  have memM := fun c hc => decimalRepr_mem (n := M) (c := c) hc
  set cs : List Char := decimalRepr D ++ 'd' :: (decimalRepr H ++ 'h' :: decimalRepr M) with hcs
  have hdata : (String.mk cs).data = cs := rfl
  have rest1 : List Char := decimalRepr H ++ 'h' :: decimalRepr M
  have hno_d_rest : ∀ c ∈ decimalRepr H ++ 'h' :: decimalRepr M, (fun c => decide (c = 'd')) c = false := by
    intro c hc
    rcases List.mem_append.mp hc with h1 | h2
    · simp [(tenDigits_ne c (memH c h1)).1]
    · rcases List.mem_cons.mp h2 with rfl | h3
      · decide
      · simp [(tenDigits_ne c (memM c h3)).1]
  have hsplitD : pySplitP (fun c => c = 'd') cs
      = [decimalRepr D, decimalRepr H ++ 'h' :: decimalRepr M] := by
    rw [hcs, pySplitP_append _ _ _ _ (fun c hc => by simp [(tenDigits_ne c (memD c hc)).1]) (by decide)]
    rw [pySplitP_eq_single _ _ hno_d_rest]
  have hsplitH : pySplitP (fun c => c = 'h') (decimalRepr H ++ 'h' :: decimalRepr M)
      = [decimalRepr H, decimalRepr M] := by
    rw [pySplitP_append _ _ _ _ (fun c hc => by simp [(tenDigits_ne c (memH c hc)).2.1]) (by decide)]
    rw [pySplitP_eq_single _ _ (fun c hc => by simp [(tenDigits_ne c (memM c hc)).2.1])]
  have hsplitM : pySplitP (fun c => c = 'm') (decimalRepr M) = [decimalRepr M] :=
    pySplitP_eq_single _ _ (fun c hc => by simp [(tenDigits_ne c (memM c hc)).2.2.1])
  have hday : dayNumber cs = some (D : ℚ) := by
    simp only [dayNumber]
    rw [hsplitD]
    simp [pyFloat_decimalRepr]
  have hl1 : ([decimalRepr D, decimalRepr H ++ 'h' :: decimalRepr M] : List (List Char)).getLastD []
      = decimalRepr H ++ 'h' :: decimalRepr M := rfl
  have hl2 : ([decimalRepr H, decimalRepr M] : List (List Char)).getLastD [] = decimalRepr M := rfl
  have hhour : hourNumber cs = some (H : ℚ) := by
    simp only [hourNumber]
    rw [hsplitD, hl1, hsplitH]
    simp [pyFloat_decimalRepr]
  have hminute : minuteNumber cs = some (M : ℚ) := by
    simp only [minuteNumber]
    rw [hsplitD, hl1, hsplitH, hl2, hsplitM]
    simp [pyFloat_decimalRepr]
  have hhead : ∃ c r, cs = c :: r ∧ c ∈ tenDigits := by
    rcases hrep : decimalRepr D with _ | ⟨c, r⟩
    · exact absurd hrep (decimalRepr_ne_nil D)
    · exact ⟨c, r ++ 'd' :: (decimalRepr H ++ 'h' :: decimalRepr M), by rw [hcs, hrep]; rfl,
        memD c (by rw [hrep]; exact List.mem_cons_self c r)⟩
  obtain ⟨c, r, hcons, hcmem⟩ := hhead
  have hneg : hasNegSign (String.mk cs).data = false := by
    rw [hdata, hcons]
    simp [hasNegSign, (tenDigits_ne c hcmem).2.2.2.2.2.2.2]
  have hpos : positivePart (String.mk cs).data = cs := by
    rw [hdata, hcons]
    simp [positivePart, (tenDigits_ne c hcmem).2.2.2.2.2.2.2]
  simp only [parse_duration, hdata]
  rw [hneg, hpos, hday, hhour, hminute]
  simp

theorem parse_duration_of_digits_hm (H M : ℕ) :
    parse_duration ⟨decimalRepr H ++ 'h' :: decimalRepr M⟩
      = some ((H : ℚ) * 3600 + (M : ℚ) * 60) := by
  have memH := fun c hc => decimalRepr_mem (n := H) (c := c) hc
  have memM := fun c hc => decimalRepr_mem (n := M) (c := c) hc
  set cs : List Char := decimalRepr H ++ 'h' :: decimalRepr M with hcs
  have hdata : (String.mk cs).data = cs := rfl
  have hno_d : ∀ c ∈ cs, (fun c => decide (c = 'd')) c = false := by
    intro c hc
    rw [hcs] at hc
    rcases List.mem_append.mp hc with h1 | h2
    · simp [(tenDigits_ne c (memH c h1)).1]
    · rcases List.mem_cons.mp h2 with rfl | h3
      · decide
      · simp [(tenDigits_ne c (memM c h3)).1]
  have hsplitD : pySplitP (fun c => c = 'd') cs = [cs] := pySplitP_eq_single _ _ hno_d
  have hsplitH : pySplitP (fun c => c = 'h') cs = [decimalRepr H, decimalRepr M] := by
    rw [hcs, pySplitP_append _ _ _ _ (fun c hc => by simp [(tenDigits_ne c (memH c hc)).2.1]) (by decide)]
    rw [pySplitP_eq_single _ _ (fun c hc => by simp [(tenDigits_ne c (memM c hc)).2.1])]
  have hsplitM : pySplitP (fun c => c = 'm') (decimalRepr M) = [decimalRepr M] :=
    pySplitP_eq_single _ _ (fun c hc => by simp [(tenDigits_ne c (memM c hc)).2.2.1])
  have hl1 : ([cs] : List (List Char)).getLastD [] = cs := rfl
  have hl2 : ([decimalRepr H, decimalRepr M] : List (List Char)).getLastD [] = decimalRepr M := rfl
  have hday : dayNumber cs = none := by
    simp only [dayNumber]
    rw [hsplitD]
    simp
  have hhour : hourNumber cs = some (H : ℚ) := by
    simp only [hourNumber]
    rw [hsplitD, hl1, hsplitH]
    simp [pyFloat_decimalRepr]
  have hminute : minuteNumber cs = some (M : ℚ) := by
    simp only [minuteNumber]
    rw [hsplitD, hl1, hsplitH, hl2, hsplitM]
    simp [pyFloat_decimalRepr]
  have hhead : ∃ c r, cs = c :: r ∧ c ∈ tenDigits := by
    rcases hrep : decimalRepr H with _ | ⟨c, r⟩
    · exact absurd hrep (decimalRepr_ne_nil H)
    · exact ⟨c, r ++ 'h' :: decimalRepr M, by rw [hcs, hrep]; rfl,
        memH c (by rw [hrep]; exact List.mem_cons_self c r)⟩
  obtain ⟨c, r, hcons, hcmem⟩ := hhead
  have hneg : hasNegSign (String.mk cs).data = false := by
    rw [hdata, hcons]
    simp [hasNegSign, (tenDigits_ne c hcmem).2.2.2.2.2.2.2]
  have hpos : positivePart (String.mk cs).data = cs := by
    rw [hdata, hcons]
    simp [positivePart, (tenDigits_ne c hcmem).2.2.2.2.2.2.2]
  simp only [parse_duration, hdata]
  rw [hneg, hpos, hday, hhour, hminute]
  simp

theorem parse_duration_of_digits_m (M : ℕ) :
    parse_duration ⟨decimalRepr M⟩ = some ((M : ℚ) * 60) := by
  have memM := fun c hc => decimalRepr_mem (n := M) (c := c) hc
  have hdata : (String.mk (decimalRepr M)).data = decimalRepr M := rfl
  have hsplitD : pySplitP (fun c => c = 'd') (decimalRepr M) = [decimalRepr M] :=
    pySplitP_eq_single _ _ (fun c hc => by simp [(tenDigits_ne c (memM c hc)).1])
  have hsplitH : pySplitP (fun c => c = 'h') (decimalRepr M) = [decimalRepr M] :=
    pySplitP_eq_single _ _ (fun c hc => by simp [(tenDigits_ne c (memM c hc)).2.1])
  have hsplitM : pySplitP (fun c => c = 'm') (decimalRepr M) = [decimalRepr M] :=
    pySplitP_eq_single _ _ (fun c hc => by simp [(tenDigits_ne c (memM c hc)).2.2.1])
  have hl1 : ([decimalRepr M] : List (List Char)).getLastD [] = decimalRepr M := rfl
  have hday : dayNumber (decimalRepr M) = none := by
    simp only [dayNumber]
    rw [hsplitD]
    simp
  have hhour : hourNumber (decimalRepr M) = none := by
    simp only [hourNumber]
    rw [hsplitD, hl1, hsplitH]
    simp
  have hminute : minuteNumber (decimalRepr M) = some (M : ℚ) := by
    simp only [minuteNumber]
    rw [hsplitD, hl1, hsplitH, hl1, hsplitM]
    simp [pyFloat_decimalRepr]
  have hhead : ∃ c r, decimalRepr M = c :: r ∧ c ∈ tenDigits := by
    rcases hrep : decimalRepr M with _ | ⟨c, r⟩
    · exact absurd hrep (decimalRepr_ne_nil M)
    · exact ⟨c, r, rfl, memM c (by rw [hrep]; exact List.mem_cons_self c r)⟩
  obtain ⟨c, r, hcons, hcmem⟩ := hhead
  have hneg : hasNegSign (String.mk (decimalRepr M)).data = false := by
    rw [hdata, hcons]
    simp [hasNegSign, (tenDigits_ne c hcmem).2.2.2.2.2.2.2]
  have hpos : positivePart (String.mk (decimalRepr M)).data = decimalRepr M := by
    rw [hdata, hcons]
    simp [positivePart, (tenDigits_ne c hcmem).2.2.2.2.2.2.2]
  simp only [parse_duration, hdata]
  rw [hneg, hpos, hday, hhour, hminute]
  simp

/-- C6: the duration codec round-trips every non-negative whole-minute
duration: formatting 60k seconds and parsing the result gives back 60k. -/
theorem parse_duration_duration_str (k : ℕ) :
    parse_duration (duration_str (60 * (k : ℚ))) = some (60 * (k : ℚ)) := by
  have hx : (60 * (k : ℚ)) = ((60 * k : ℕ) : ℚ) := by push_cast; ring
  have hnn : (0 : ℚ) ≤ 60 * (k : ℚ) := by positivity
  rw [duration_str, if_pos hnn, hx, positive_time_sixty]
  by_cases hD : k / 1440 ≠ 0
  · rw [if_pos hD, parse_duration_of_digits_dhm]
    congr 1
    have : (k / 1440) * 86400 + (k % 1440 / 60) * 3600 + (k % 60) * 60 = 60 * k := by omega
    push_cast [← this]
    ring
  · rw [if_neg hD]
    by_cases hH : k % 1440 / 60 ≠ 0
    · rw [if_pos hH, parse_duration_of_digits_hm]
      congr 1
      have h0 : k / 1440 = 0 := by omega
      have : (k % 1440 / 60) * 3600 + (k % 60) * 60 = 60 * k := by omega
      push_cast [← this]
      ring
    · rw [if_neg hH, parse_duration_of_digits_m]
      congr 1
      have : (k % 60) * 60 = 60 * k := by omega
      push_cast [← this]
      ring

/-! ## C9: duration range -/

theorem parse_time_bounds {s : String} {hm : ℕ × ℕ} (hp : parse_time s = some hm) :
    hm.1 ≤ 23 ∧ hm.2 ≤ 59 := by
  simp only [parse_time] at hp
  split at hp
  · split at hp
    · rename_i hcond
      cases hp
      exact ⟨hcond.2.1, hcond.2.2.2.2⟩
    · cases hp
  · cases hp

/-- C9: a LogItem duration is always in the half-open interval
[0, 86400), and is 0 whenever the start or end string fails to parse. -/
theorem logitem_duration_range (name start_str end_str : String) (is_marked : Bool) :
    (0 ≤ (LogItem.ofStrings name start_str end_str is_marked).duration ∧
      (LogItem.ofStrings name start_str end_str is_marked).duration < 86400) ∧
    (parse_time start_str = none ∨ parse_time end_str = none →
      (LogItem.ofStrings name start_str end_str is_marked).duration = 0) := by
  unfold LogItem.ofStrings LogItem.duration
  rcases hs : parse_time start_str with _ | s
  · refine ⟨⟨le_refl 0, by norm_num⟩, fun _ => rfl⟩
  · rcases he : parse_time end_str with _ | e
    · refine ⟨⟨le_refl 0, by norm_num⟩, fun _ => rfl⟩
    · have hsb := parse_time_bounds hs
      have heb := parse_time_bounds he
      simp only
      constructor
      · have hdlow : (-86340 : ℚ) ≤ time_diff e s := by
          unfold time_diff
          have h1 : (3600 * e.1 + 60 * e.2 : ℤ) ≥ 0 := by positivity
          have h2 : (3600 * s.1 + 60 * s.2 : ℤ) ≤ 86340 := by omega
          have h1q : (0 : ℚ) ≤ ((3600 * e.1 + 60 * e.2 : ℤ) : ℚ) := by exact_mod_cast h1
          have h2q : ((3600 * s.1 + 60 * s.2 : ℤ) : ℚ) ≤ 86340 := by exact_mod_cast h2
          linarith
        have hdhigh : time_diff e s ≤ 86340 := by
          unfold time_diff
          have h1 : (3600 * e.1 + 60 * e.2 : ℤ) ≤ 86340 := by omega
          have h2 : (3600 * s.1 + 60 * s.2 : ℤ) ≥ 0 := by positivity
          have h1q : ((3600 * e.1 + 60 * e.2 : ℤ) : ℚ) ≤ 86340 := by exact_mod_cast h1
          have h2q : (0 : ℚ) ≤ ((3600 * s.1 + 60 * s.2 : ℤ) : ℚ) := by exact_mod_cast h2
          linarith
        by_cases hnn : 0 ≤ time_diff e s
        · rw [if_pos hnn]
          exact ⟨hnn, by linarith⟩
        · rw [if_neg hnn]
          push_neg at hnn
          exact ⟨by linarith, by linarith⟩
      · intro hor
        rcases hor with h | h
        · exact absurd h (by simp)
        · exact absurd h (by simp)

/-- C9 witness: concrete evaluation of the bounds at an unparseable
start string. -/
theorem logitem_duration_range_witness :
    (LogItem.ofStrings "x" "" "12:00" false).duration = 0 ∧
      0 ≤ (LogItem.ofStrings "x" "" "12:00" false).duration :=
  ⟨(logitem_duration_range "x" "" "12:00" false).2 (Or.inl (by decide)),
    (logitem_duration_range "x" "" "12:00" false).1.1⟩

/-! ## planner_logger data model

TwoStagePlanItem objects are mutable and shared between entries; their
Python object identity is modelled by an index into a heap list carried
by the state.  copy.copy(plan) appends a fresh heap cell with the same
field values.  The previous_log / next_log object references between
entries of one list are modelled by the position of the referenced entry
in the list (the list is never reordered while links exist: update_link
rebuilds all links from scratch on the current order). -/

/-- planner_logger.TwoStagePlanItem. -/
structure TwoStagePlanItem where
  first_duration : String
  last_duration : String
  is_marked : Bool
  is_mark_set : Bool
deriving DecidableEq, Repr, Inhabited

/-- planner_logger.ContinuingLogItem: plan and backup_plan hold heap
indices standing for the referenced TwoStagePlanItem objects, and
previous_log / next_log hold entry positions. -/
structure ContinuingLogItem where
  name : String
  start_str : String
  end_str : String
  index : ℤ
  is_continued : Bool
  previous_log : Option ℕ
  next_log : Option ℕ
  plan : ℕ
  backup_plan : ℕ
deriving DecidableEq, Repr, Inhabited

/-- The mutable state seen by update_link: the controller's logs list
plus the heap of live plan objects. -/
structure LogState where
  entries : List ContinuingLogItem
  heap : List TwoStagePlanItem
deriving DecidableEq, Repr, Inhabited

/-- Constructor data for one entry as loaded from persistence or built
by the UI: every construction site of ContinuingLogItem passes a plan
that is a fresh object (or None, which allocates a fresh default one),
and the constructor sets backup_plan to that same object. -/
structure LogInput where
  name : String
  start_str : String
  end_str : String
  index : ℤ
  is_continued : Bool
  plan : TwoStagePlanItem
deriving DecidableEq, Repr, Inhabited

/-- The state built from a list of freshly constructed entries: entry i
owns heap cell i, with plan and backup_plan both referencing it, exactly
as ContinuingLogItem.__init__ leaves them. -/
def initState (l : List LogInput) : LogState where
  entries := l.mapIdx fun i a =>
    ⟨a.name, a.start_str, a.end_str, a.index, a.is_continued, none, none, i, i⟩
  heap := l.map (fun a => a.plan)

/-- The entry object at a list position. -/
def LogState.entry (st : LogState) (i : ℕ) : ContinuingLogItem :=
  st.entries.getD i default

/-- The plan object stored in a heap cell. -/
def LogState.planAt (st : LogState) (c : ℕ) : TwoStagePlanItem :=
  st.heap.getD c default

def LogState.setEntry (st : LogState) (i : ℕ) (e : ContinuingLogItem) : LogState :=
  { st with entries := st.entries.set i e }

def LogState.setPlan (st : LogState) (c : ℕ) (p : TwoStagePlanItem) : LogState :=
  { st with heap := st.heap.set c p }

/-- Allocation of a new plan object (the model of copy.copy). -/
def LogState.pushPlan (st : LogState) (p : TwoStagePlanItem) : LogState :=
  { st with heap := st.heap ++ [p] }

/-- The is_continued property setter of ContinuingLogItem: flipping
False→True backs up the current plan into a fresh copy, flipping
True→False restores the plan from a fresh copy of the backup. -/
def setIsContinued (st : LogState) (i : ℕ) (new_value : Bool) : LogState :=
  let e := st.entry i
  let old_value := e.is_continued
  if old_value = false ∧ new_value = true then
    (st.setEntry i { e with is_continued := new_value, backup_plan := st.heap.length }).pushPlan
      (st.planAt e.plan)
  else if old_value = true ∧ new_value = false then
    (st.setEntry i { e with is_continued := new_value, plan := st.heap.length }).pushPlan
      (st.planAt e.backup_plan)
  else
    st.setEntry i { e with is_continued := new_value }

/-- ContinuingLogItem.clear_link_state. -/
def clear_link_state (st : LogState) (i : ℕ) : LogState :=
  st.setEntry i { st.entry i with previous_log := none, next_log := none }

/-- ContinuingLogItem.insert_to_linked_list: insert entry i after entry
j, splicing in front of any entry that followed j. -/
def insert_to_linked_list (st : LogState) (i j : ℕ) : LogState :=
  let st1 := setIsContinued st i true
  let next_item := (st1.entry j).next_log
  let st2 := st1.setEntry i { st1.entry i with previous_log := some j, next_log := next_item }
  let st3 := st2.setEntry j { st2.entry j with next_log := some i }
  match next_item with
  | some k => st3.setEntry k { st3.entry k with previous_log := some i }
  | none => st3

/-- The list comprehension [a_log for a_log in self.logs[0:index] if
a_log.name == log.name], as the list of matching positions. -/
def sameNameBefore (st : LogState) (i : ℕ) : List ℕ :=
  (List.range i).filter fun j => decide ((st.entry j).name = (st.entry i).name)

/-- The else branch of the update_link loop body: force is_continued to
False (restoring the backup plan if it was True) and, when the plan's
mark is not manually set, inherit is_marked from the nearest preceding
same-named entry, else from the first same-named entry of
previous_logs, else set it to False. -/
def markElseBranch (previous_logs : List LogInput) (st : LogState) (i : ℕ)
    (same_name_logs : List ℕ) : LogState :=
  let st1 := setIsContinued st i false
  let log := st1.entry i
  if (st1.planAt log.plan).is_mark_set = false then
    let new_mark : Bool :=
      match same_name_logs.getLast? with
      | some j => (st1.planAt ((st1.entry j).plan)).is_marked
      | none =>
        match (previous_logs.filter fun a_log => decide (a_log.name = log.name)).head? with
        | some p => p.plan.is_marked
        | none => false
    st1.setPlan log.plan { st1.planAt log.plan with is_marked := new_mark }
  else st1

/-- One iteration of the loop in PlannerLoggerController.update_link for
the entry at position i. -/
def update_link_step (previous_logs : List LogInput) (st : LogState) (i : ℕ) : LogState :=
  let st0 := clear_link_state st i
  let log := st0.entry i
  let same_name_logs := sameNameBefore st0 i
  match same_name_logs.getLast? with
  | some j =>
    if log.is_continued then
      let stL := insert_to_linked_list st0 i j
      stL.setEntry i { stL.entry i with plan := (stL.entry j).plan }
    else markElseBranch previous_logs st0 i same_name_logs
  | none => markElseBranch previous_logs st0 i same_name_logs

/-- PlannerLoggerController.update_link: one left-to-right pass over the
list (the suspend_link_update reentrancy flag and the widget refresh
loop are GUI mechanics outside the model). -/
def update_link (previous_logs : List LogInput) (st : LogState) : LogState :=
  (List.range st.entries.length).foldl (update_link_step previous_logs) st

/-- ContinuingLogItem.total_duration, the chain-prefix sum through
previous_log; the recursion is bounded by an explicit fuel (the Python
recursion is unbounded, and terminates exactly when the links are
acyclic, which holds for reconciled states). -/
def LogState.total_duration (st : LogState) : ℕ → ℕ → ℚ
  | 0, _ => 0
  | fuel + 1, i =>
    durationOf (st.entry i).start_str (st.entry i).end_str +
      (match (st.entry i).previous_log with
       | none => 0
       | some p => st.total_duration fuel p)

/-- ContinuingLogItem.tail, following next_log with fuel. -/
def LogState.tail (st : LogState) : ℕ → ℕ → ℕ
  | 0, i => i
  | fuel + 1, i =>
    match (st.entry i).next_log with
    | none => i
    | some nx => st.tail fuel nx

/-- ContinuingLogItem.effective_duration: the parsed last_duration of
the plan when it parses, the entry's own total_duration() otherwise. -/
def LogState.effective_duration (st : LogState) (i : ℕ) : ℚ :=
  match parse_duration (st.planAt (st.entry i).plan).last_duration with
  | some d => d
  | none => st.total_duration st.entries.length i

/-- ContinuingLogItem.is_head. -/
def LogState.is_head (st : LogState) (i : ℕ) : Bool :=
  (st.entry i).next_log.isSome && (st.entry i).previous_log.isNone

/-! ## State accessor lemmas -/

theorem List.getD_set_self {α : Type} (l : List α) (i : ℕ) (v d : α) (h : i < l.length) :
    (l.set i v).getD i d = v := by
  rw [List.getD_eq_getElem?_getD, List.getElem?_set_self (by simpa using h)]
  rfl

theorem List.getD_set_ne {α : Type} (l : List α) (i j : ℕ) (v d : α) (h : i ≠ j) :
    (l.set i v).getD j d = l.getD j d := by
  rw [List.getD_eq_getElem?_getD, List.getElem?_set_ne h, ← List.getD_eq_getElem?_getD]

theorem List.getD_append_lt {α : Type} (l l2 : List α) (i : ℕ) (d : α) (h : i < l.length) :
    (l ++ l2).getD i d = l.getD i d := by
  rw [List.getD_eq_getElem?_getD, List.getElem?_append, if_pos h, ← List.getD_eq_getElem?_getD]

theorem List.getD_concat_length {α : Type} (l : List α) (v d : α) :
    (l ++ [v]).getD l.length d = v := by
  rw [List.getD_eq_getElem?_getD, List.getElem?_concat_length]
  rfl

theorem LogState.entry_setEntry_self (st : LogState) (i : ℕ) (e : ContinuingLogItem)
    (h : i < st.entries.length) : (st.setEntry i e).entry i = e :=
  List.getD_set_self _ _ _ _ h

theorem LogState.entry_setEntry_ne (st : LogState) (i j : ℕ) (e : ContinuingLogItem)
    (h : i ≠ j) : (st.setEntry i e).entry j = st.entry j :=
  List.getD_set_ne _ _ _ _ _ h

theorem LogState.entry_setPlan (st : LogState) (c : ℕ) (p : TwoStagePlanItem) (j : ℕ) :
    (st.setPlan c p).entry j = st.entry j := rfl

theorem LogState.entry_pushPlan (st : LogState) (p : TwoStagePlanItem) (j : ℕ) :
    (st.pushPlan p).entry j = st.entry j := rfl

theorem LogState.planAt_setEntry (st : LogState) (i : ℕ) (e : ContinuingLogItem) (c : ℕ) :
    (st.setEntry i e).planAt c = st.planAt c := rfl

theorem LogState.planAt_setPlan_self (st : LogState) (c : ℕ) (p : TwoStagePlanItem)
    (h : c < st.heap.length) : (st.setPlan c p).planAt c = p :=
  List.getD_set_self _ _ _ _ h

theorem LogState.planAt_setPlan_ne (st : LogState) (c c2 : ℕ) (p : TwoStagePlanItem)
    (h : c ≠ c2) : (st.setPlan c p).planAt c2 = st.planAt c2 :=
  List.getD_set_ne _ _ _ _ _ h

theorem LogState.planAt_pushPlan_lt (st : LogState) (p : TwoStagePlanItem) (c : ℕ)
    (h : c < st.heap.length) : (st.pushPlan p).planAt c = st.planAt c :=
  List.getD_append_lt _ _ _ _ h

theorem LogState.planAt_pushPlan_len (st : LogState) (p : TwoStagePlanItem) :
    (st.pushPlan p).planAt st.heap.length = p :=
  List.getD_concat_length _ _ _

theorem LogState.length_setEntry (st : LogState) (i : ℕ) (e : ContinuingLogItem) :
    (st.setEntry i e).entries.length = st.entries.length := by
  simp [LogState.setEntry]

theorem LogState.heap_setEntry (st : LogState) (i : ℕ) (e : ContinuingLogItem) :
    (st.setEntry i e).heap = st.heap := rfl

theorem LogState.entries_setPlan (st : LogState) (c : ℕ) (p : TwoStagePlanItem) :
    (st.setPlan c p).entries = st.entries := rfl

theorem LogState.entries_pushPlan (st : LogState) (p : TwoStagePlanItem) :
    (st.pushPlan p).entries = st.entries := rfl

theorem LogState.heapLength_setPlan (st : LogState) (c : ℕ) (p : TwoStagePlanItem) :
    (st.setPlan c p).heap.length = st.heap.length := by
  simp [LogState.setPlan]

theorem LogState.heapLength_pushPlan (st : LogState) (p : TwoStagePlanItem) :
    (st.pushPlan p).heap.length = st.heap.length + 1 := by
  simp [LogState.pushPlan]

theorem LogState.setEntry_entry_self (st : LogState) (i : ℕ) :
    st.setEntry i (st.entry i) = st := by
  cases st with
  | mk entries heap =>
    simp only [LogState.setEntry, LogState.entry, LogState.mk.injEq, and_true]
    by_cases hl : i < entries.length
    · apply List.ext_getElem?
      intro j
      by_cases h : i = j
      · subst h
        rw [List.getElem?_set_self (by simpa using hl), List.getD_eq_getElem?_getD,
          List.getElem?_eq_getElem hl]
        rfl
      · rw [List.getElem?_set_ne h]
    · exact List.set_eq_of_length_le (le_of_not_lt hl)

/-! ## Spec-side description of one update_link pass

The functions below compute, from the state st0 handed to update_link,
the exact values every entry and plan cell holds after the pass; the
master theorem update_link_spec proves the correspondence. -/

/-- Name of the entry at a position (never changed by the pass). -/
def nameOf (st0 : LogState) (i : ℕ) : String := (st0.entry i).name

/-- is_continued of the entry at a position as update_link finds it. -/
def contIn (st0 : LogState) (i : ℕ) : Bool := (st0.entry i).is_continued

/-- Position of the nearest preceding same-named entry, the object
same_name_logs[-1] of the loop body. -/
def prevSame (st0 : LogState) (i : ℕ) : Option ℕ :=
  ((List.range i).filter fun j => decide (nameOf st0 j = nameOf st0 i)).getLast?

/-- is_continued of the entry after the pass: it keeps True exactly when
a same-named predecessor exists. -/
def contOut (st0 : LogState) (i : ℕ) : Bool :=
  (prevSame st0 i).isSome && contIn st0 i

/-- Whether the step for entry i allocates a fresh plan object (the
True→False setter restore copy.copy(backup_plan)). -/
def isAlloc (st0 : LogState) (i : ℕ) : Bool :=
  contIn st0 i && (prevSame st0 i).isNone

/-- Number of fresh plan objects allocated by the steps before i. -/
def allocBefore (st0 : LogState) (i : ℕ) : ℕ :=
  ((List.range i).filter fun j => isAlloc st0 j).length

/-- Heap cell holding the plan object of a chain head h after its step:
the freshly allocated restore copy when the head entered the pass
continued, its own original cell otherwise. -/
def headCell (st0 : LogState) (h : ℕ) : ℕ :=
  if contIn st0 h then st0.heap.length + allocBefore st0 h else (st0.entry h).plan

theorem mem_filter_range_name {st0 : LogState} {i j : ℕ} :
    j ∈ (List.range i).filter (fun j => decide (nameOf st0 j = nameOf st0 i)) ↔
      j < i ∧ nameOf st0 j = nameOf st0 i := by
  simp [List.mem_filter, List.mem_range]

theorem sorted_filter_range (p : ℕ → Bool) (n : ℕ) :
    ((List.range n).filter p).Sorted (· < ·) :=
  (List.sorted_lt_range n).filter p

theorem getLast?_sorted_max {l : List ℕ} (hs : l.Sorted (· < ·)) {j : ℕ}
    (h : l.getLast? = some j) : ∀ m ∈ l, m ≤ j := by
  induction l with
  | nil => cases h
  | cons a t ih =>
    intro m hm
    cases t with
    | nil =>
      simp only [List.getLast?_singleton, Option.some.injEq] at h
      simp only [List.mem_singleton] at hm
      omega
    | cons b t2 =>
      rw [List.getLast?_cons_cons] at h
      have hs2 : (b :: t2).Sorted (· < ·) := hs.of_cons
      rcases List.mem_cons.mp hm with rfl | hm2
      · have hj : j ∈ b :: t2 := List.mem_of_mem_getLast? h
        have := (List.sorted_cons.mp hs).1 j hj
        omega
      · exact ih hs2 h m hm2

theorem head?_sorted_min {l : List ℕ} (hs : l.Sorted (· < ·)) {j : ℕ}
    (h : l.head? = some j) : ∀ m ∈ l, j ≤ m := by
  cases l with
  | nil => cases h
  | cons a t =>
    cases h
    intro m hm
    rcases List.mem_cons.mp hm with rfl | hm2
    · exact le_refl m
    · exact le_of_lt ((List.sorted_cons.mp hs).1 m hm2)

theorem prevSame_spec {st0 : LogState} {i j : ℕ} (h : prevSame st0 i = some j) :
    j < i ∧ nameOf st0 j = nameOf st0 i ∧
      ∀ m, j < m → m < i → nameOf st0 m ≠ nameOf st0 i := by
  have hmem := List.mem_of_mem_getLast? h
  have hj := mem_filter_range_name.mp hmem
  refine ⟨hj.1, hj.2, fun m hjm hmi hname => ?_⟩
  have hm : m ∈ (List.range i).filter (fun j => decide (nameOf st0 j = nameOf st0 i)) :=
    mem_filter_range_name.mpr ⟨hmi, hname⟩
  have := getLast?_sorted_max (sorted_filter_range _ i) h m hm
  omega

theorem prevSame_lt {st0 : LogState} {i j : ℕ} (h : prevSame st0 i = some j) : j < i :=
  (prevSame_spec h).1

theorem prevSame_isSome_of {st0 : LogState} {i j : ℕ} (hj : j < i)
    (hname : nameOf st0 j = nameOf st0 i) : (prevSame st0 i).isSome := by
  unfold prevSame
  rw [List.getLast?_isSome]
  intro hnil
  have : j ∈ (List.range i).filter (fun j => decide (nameOf st0 j = nameOf st0 i)) :=
    mem_filter_range_name.mpr ⟨hj, hname⟩
  rw [hnil] at this
  cases this

/-- Position of the next same-named entry after i in the list. -/
def nextSame (st0 : LogState) (i : ℕ) : Option ℕ :=
  ((List.range st0.entries.length).filter
    fun j => decide (i < j ∧ nameOf st0 j = nameOf st0 i)).head?

theorem mem_filter_range_next {st0 : LogState} {i j : ℕ} :
    j ∈ (List.range st0.entries.length).filter
        (fun j => decide (i < j ∧ nameOf st0 j = nameOf st0 i)) ↔
      j < st0.entries.length ∧ i < j ∧ nameOf st0 j = nameOf st0 i := by
  simp [List.mem_filter, List.mem_range]

theorem nextSame_spec {st0 : LogState} {i j : ℕ} (h : nextSame st0 i = some j) :
    j < st0.entries.length ∧ i < j ∧ nameOf st0 j = nameOf st0 i ∧
      ∀ m, i < m → m < j → nameOf st0 m ≠ nameOf st0 i := by
  have hmem := List.mem_of_mem_head? h
  have hj := mem_filter_range_next.mp hmem
  refine ⟨hj.1, hj.2.1, hj.2.2, fun m him hmj hname => ?_⟩
  have hmn : m < st0.entries.length := lt_trans hmj hj.1
  have hm : m ∈ (List.range st0.entries.length).filter
      (fun j => decide (i < j ∧ nameOf st0 j = nameOf st0 i)) :=
    mem_filter_range_next.mpr ⟨hmn, him, hname⟩
  have := head?_sorted_min (sorted_filter_range _ _) h m hm
  omega

theorem nextSame_isSome_of {st0 : LogState} {i j : ℕ} (hj : i < j)
    (hjn : j < st0.entries.length) (hname : nameOf st0 j = nameOf st0 i) :
    (nextSame st0 i).isSome := by
  unfold nextSame
  rw [List.head?_isSome]
  intro hnil
  have : j ∈ (List.range st0.entries.length).filter
      (fun j => decide (i < j ∧ nameOf st0 j = nameOf st0 i)) :=
    mem_filter_range_next.mpr ⟨hjn, hj, hname⟩
  rw [hnil] at this
  cases this

theorem prevSame_nextSame {st0 : LogState} {i j : ℕ} (hi : i < st0.entries.length)
    (h : prevSame st0 i = some j) : nextSame st0 j = some i := by
  obtain ⟨hji, hname, hmax⟩ := prevSame_spec h
  have hsome := @nextSame_isSome_of st0 j i hji hi hname.symm
  rcases hns : nextSame st0 j with _ | m
  · rw [hns] at hsome
    cases hsome
  · obtain ⟨hmn, hjm, hnm, hmin⟩ := nextSame_spec hns
    by_cases hc : m = i
    · rw [hc]
    · have hmi : m < i ∨ i < m := by
        rcases lt_trichotomy m i with h1 | h1 | h1
        · exact Or.inl h1
        · exact absurd h1 hc
        · exact Or.inr h1
      rcases hmi with h1 | h1
      · exact absurd (hnm.trans hname) (hmax m hjm h1)
      · exact absurd hname.symm (hmin i hji h1)

theorem nextSame_prevSame {st0 : LogState} {i j : ℕ} (h : nextSame st0 j = some i) :
    prevSame st0 i = some j := by
  obtain ⟨hin, hji, hname, hmin⟩ := nextSame_spec h
  have hsome := @prevSame_isSome_of st0 i j hji hname.symm
  rcases hps : prevSame st0 i with _ | m
  · rw [hps] at hsome
    cases hsome
  · obtain ⟨hmi, hnm, hmax⟩ := prevSame_spec hps
    by_cases hc : m = j
    · rw [hc]
    · have : j ≤ m := by
        have hj : j ∈ (List.range i).filter (fun x => decide (nameOf st0 x = nameOf st0 i)) :=
          mem_filter_range_name.mpr ⟨hji, hname.symm⟩
        exact getLast?_sorted_max (sorted_filter_range _ i) hps j hj
      have hjm : j < m := lt_of_le_of_ne this (fun he => hc he.symm)
      exact absurd (hnm.trans hname) (hmin m hjm hmi)

/-- Fuel-bounded head-of-chain recursion: follow prevSame while the
entry keeps is_continued. -/
def chainHeadF (st0 : LogState) : ℕ → ℕ → ℕ
  | 0, i => i
  | fuel + 1, i =>
    match prevSame st0 i with
    | some p => if contIn st0 i then chainHeadF st0 fuel p else i
    | none => i

/-- Head of the chain an entry ends up in; i + 1 fuel always suffices
because prevSame strictly decreases. -/
def chainHead (st0 : LogState) (i : ℕ) : ℕ := chainHeadF st0 (i + 1) i

theorem chainHeadF_irrel {st0 : LogState} : ∀ i f1 f2, i < f1 → i < f2 →
    chainHeadF st0 f1 i = chainHeadF st0 f2 i := by
  intro i
  induction i using Nat.strong_induction_on with
  | _ i ih =>
    intro f1 f2 h1 h2
    obtain ⟨a, rfl⟩ : ∃ a, f1 = a + 1 := ⟨f1 - 1, by omega⟩
    obtain ⟨b, rfl⟩ : ∃ b, f2 = b + 1 := ⟨f2 - 1, by omega⟩
    simp only [chainHeadF]
    rcases hps : prevSame st0 i with _ | p
    · rfl
    · by_cases hc : contIn st0 i
      · have hp := prevSame_lt hps
        simp only [hc, if_true]
        exact ih p (by omega) a b (by omega) (by omega)
      · simp [hc]

theorem chainHeadF_fuel {st0 : LogState} (fuel i : ℕ) (h : i < fuel) :
    chainHeadF st0 fuel i = chainHead st0 i :=
  chainHeadF_irrel i fuel (i + 1) h (by omega)

theorem chainHead_of_prevSame_none {st0 : LogState} {i : ℕ} (hps : prevSame st0 i = none) :
    chainHead st0 i = i := by
  simp [chainHead, chainHeadF, hps]

theorem chainHead_of_contIn_false {st0 : LogState} {i : ℕ} (hc : contIn st0 i = false) :
    chainHead st0 i = i := by
  simp only [chainHead, chainHeadF]
  rcases hps : prevSame st0 i with _ | p
  · rfl
  · simp [hc]

theorem chainHead_of_contOut_false {st0 : LogState} {i : ℕ} (h : contOut st0 i = false) :
    chainHead st0 i = i := by
  unfold contOut at h
  rcases hps : prevSame st0 i with _ | p
  · exact chainHead_of_prevSame_none hps
  · rw [hps] at h
    simp only [Option.isSome_some, Bool.true_and] at h
    exact chainHead_of_contIn_false h

theorem chainHead_of_contOut_true {st0 : LogState} {i p : ℕ} (hps : prevSame st0 i = some p)
    (h : contIn st0 i = true) : chainHead st0 i = chainHead st0 p := by
  have hp := prevSame_lt hps
  simp only [chainHead, chainHeadF, hps, h, if_true]
  exact chainHeadF_fuel (i) p (by omega)

theorem chainHead_le (st0 : LogState) (i : ℕ) : chainHead st0 i ≤ i := by
  induction i using Nat.strong_induction_on with
  | _ i ih =>
    rcases hps : prevSame st0 i with _ | p
    · rw [chainHead_of_prevSame_none hps]
    · by_cases hc : contIn st0 i
      · rw [chainHead_of_contOut_true hps hc]
        exact le_trans (ih p (prevSame_lt hps)) (le_of_lt (prevSame_lt hps))
      · rw [chainHead_of_contIn_false (by simpa using hc)]

theorem contOut_chainHead (st0 : LogState) (i : ℕ) : contOut st0 (chainHead st0 i) = false := by
  induction i using Nat.strong_induction_on with
  | _ i ih =>
    rcases hps : prevSame st0 i with _ | p
    · rw [chainHead_of_prevSame_none hps]
      unfold contOut
      rw [hps]
      rfl
    · by_cases hc : contIn st0 i
      · rw [chainHead_of_contOut_true hps hc]
        exact ih p (prevSame_lt hps)
      · rw [chainHead_of_contIn_false (by simpa using hc)]
        unfold contOut
        simp [hc]

theorem nameOf_chainHead (st0 : LogState) (i : ℕ) :
    nameOf st0 (chainHead st0 i) = nameOf st0 i := by
  induction i using Nat.strong_induction_on with
  | _ i ih =>
    rcases hps : prevSame st0 i with _ | p
    · rw [chainHead_of_prevSame_none hps]
    · by_cases hc : contIn st0 i
      · rw [chainHead_of_contOut_true hps hc]
        exact (ih p (prevSame_lt hps)).trans (prevSame_spec hps).2.1
      · rw [chainHead_of_contIn_false (by simpa using hc)]

theorem chainHead_lt {st0 : LogState} {i : ℕ} (hi : i < st0.entries.length) :
    chainHead st0 i < st0.entries.length :=
  lt_of_le_of_lt (chainHead_le st0 i) hi

/-- previous_log after the pass. -/
def prevOut (st0 : LogState) (i : ℕ) : Option ℕ :=
  if contOut st0 i then prevSame st0 i else none

/-- next_log after the pass. -/
def nextOut (st0 : LogState) (i : ℕ) : Option ℕ :=
  match nextSame st0 i with
  | some j => if contOut st0 j then some j else none
  | none => none

/-- next_log after the steps for positions below k have run: the link
from i to its continuing successor exists once the successor's own step
has inserted it. -/
def nextBefore (st0 : LogState) (k i : ℕ) : Option ℕ :=
  match nextSame st0 i with
  | some m => if m < k ∧ contOut st0 m = true then some m else none
  | none => none

/-- The plan reference every entry holds after the pass: the cell of its
chain head. -/
def planRefOut (st0 : LogState) (i : ℕ) : ℕ :=
  headCell st0 (chainHead st0 i)

/-- Contents of the plan object a chain head ends up holding, before the
mark-inheritance write: the restored backup for a head that entered the
pass continued, its own plan otherwise. -/
def baseCell (st0 : LogState) (h : ℕ) : TwoStagePlanItem :=
  if contIn st0 h then st0.planAt (st0.entry h).backup_plan else st0.planAt (st0.entry h).plan

/-- is_marked taken from the previous-session archive: the first
same-named archived entry, default False. -/
def archiveMark (previous_logs : List LogInput) (nm : String) : Bool :=
  match (previous_logs.filter fun a_log => decide (a_log.name = nm)).head? with
  | some p => p.plan.is_marked
  | none => false

/-- Fuel-bounded mark-inheritance recursion. -/
def markOutF (previous_logs : List LogInput) (st0 : LogState) : ℕ → ℕ → Bool
  | 0, _ => false
  | fuel + 1, h =>
    if (baseCell st0 h).is_mark_set then (baseCell st0 h).is_marked
    else
      match prevSame st0 h with
      | some j => markOutF previous_logs st0 fuel (chainHead st0 j)
      | none => archiveMark previous_logs (nameOf st0 h)

/-- is_marked of the plan object of a chain head after the pass: kept
when manually set, otherwise inherited through the previous same-named
chain, otherwise from the archive; h + 1 fuel always suffices. -/
def markOut (previous_logs : List LogInput) (st0 : LogState) (h : ℕ) : Bool :=
  markOutF previous_logs st0 (h + 1) h

theorem markOutF_irrel {previous_logs : List LogInput} {st0 : LogState} : ∀ h f1 f2,
    h < f1 → h < f2 →
    markOutF previous_logs st0 f1 h = markOutF previous_logs st0 f2 h := by
  intro h
  induction h using Nat.strong_induction_on with
  | _ h ih =>
    intro f1 f2 h1 h2
    obtain ⟨a, rfl⟩ : ∃ a, f1 = a + 1 := ⟨f1 - 1, by omega⟩
    obtain ⟨b, rfl⟩ : ∃ b, f2 = b + 1 := ⟨f2 - 1, by omega⟩
    simp only [markOutF]
    by_cases hset : (baseCell st0 h).is_mark_set
    · simp [hset]
    · simp only [hset, Bool.false_eq_true, if_false]
      rcases hps : prevSame st0 h with _ | j
      · rfl
      · have hj := prevSame_lt hps
        have hcl := chainHead_le st0 j
        exact ih (chainHead st0 j) (by omega) a b (by omega) (by omega)

theorem markOutF_fuel {previous_logs : List LogInput} {st0 : LogState} (fuel h : ℕ)
    (hh : h < fuel) :
    markOutF previous_logs st0 fuel h = markOut previous_logs st0 h :=
  markOutF_irrel h fuel (h + 1) hh (by omega)

theorem markOut_of_mark_set {previous_logs : List LogInput} {st0 : LogState} {h : ℕ}
    (hset : (baseCell st0 h).is_mark_set = true) :
    markOut previous_logs st0 h = (baseCell st0 h).is_marked := by
  simp [markOut, markOutF, hset]

theorem markOut_of_not_set_some {previous_logs : List LogInput} {st0 : LogState} {h j : ℕ}
    (hset : (baseCell st0 h).is_mark_set = false) (hps : prevSame st0 h = some j) :
    markOut previous_logs st0 h = markOut previous_logs st0 (chainHead st0 j) := by
  have hj := prevSame_lt hps
  have hcl := chainHead_le st0 j
  simp only [markOut, markOutF, hset, if_false, hps, Bool.false_eq_true]
  exact markOutF_fuel h (chainHead st0 j) (by omega)

theorem markOut_of_not_set_none {previous_logs : List LogInput} {st0 : LogState} {h : ℕ}
    (hset : (baseCell st0 h).is_mark_set = false) (hps : prevSame st0 h = none) :
    markOut previous_logs st0 h = archiveMark previous_logs (nameOf st0 h) := by
  simp [markOut, markOutF, hset, hps]

/-- Final contents of the plan object of a chain head. -/
def finalCell (previous_logs : List LogInput) (st0 : LogState) (h : ℕ) : TwoStagePlanItem :=
  { baseCell st0 h with is_marked := markOut previous_logs st0 h }

/-- The entry at position i after the steps for positions below k. -/
def outEntry (st0 : LogState) (k i : ℕ) : ContinuingLogItem :=
  ⟨nameOf st0 i, (st0.entry i).start_str, (st0.entry i).end_str, (st0.entry i).index,
    contOut st0 i, prevOut st0 i, nextBefore st0 k i, planRefOut st0 i,
    (st0.entry i).backup_plan⟩

/-! ## Well-formedness of the input state -/

/-- Every plan reference points into the heap. -/
def ValidRefs (st0 : LogState) : Prop :=
  ∀ i, i < st0.entries.length →
    (st0.entry i).plan < st0.heap.length ∧ (st0.entry i).backup_plan < st0.heap.length

/-- Distinct chain heads end up owning distinct plan cells.  This holds
for freshly constructed lists (each entry owns its own cell) and is
preserved by the pass. -/
def HeadCellsInj (st0 : LogState) : Prop :=
  ∀ h1 h2, h1 < st0.entries.length → h2 < st0.entries.length →
    contOut st0 h1 = false → contOut st0 h2 = false →
    headCell st0 h1 = headCell st0 h2 → h1 = h2

/-- The backup cell read by a restoring step is not a cell some earlier
head writes its mark into. -/
def BackupFresh (st0 : LogState) : Prop :=
  ∀ i, i < st0.entries.length → isAlloc st0 i = true →
    ∀ h, h < i → contOut st0 h = false → headCell st0 h ≠ (st0.entry i).backup_plan

def ValidState (st0 : LogState) : Prop :=
  ValidRefs st0 ∧ HeadCellsInj st0 ∧ BackupFresh st0

theorem allocBefore_succ (st0 : LogState) (k : ℕ) :
    allocBefore st0 (k + 1) =
      allocBefore st0 k + (if isAlloc st0 k then 1 else 0) := by
  unfold allocBefore
  rw [List.range_succ, List.filter_append]
  by_cases h : isAlloc st0 k <;> simp [h]

theorem allocBefore_mono (st0 : LogState) {a b : ℕ} (h : a ≤ b) :
    allocBefore st0 a ≤ allocBefore st0 b := by
  induction b with
  | zero =>
    have : a = 0 := by omega
    rw [this]
  | succ b ih =>
    by_cases hab : a = b + 1
    · rw [hab]
    · have hle : a ≤ b := by omega
      have := ih hle
      rw [allocBefore_succ]
      by_cases hb : isAlloc st0 b <;> simp [hb] <;> omega

theorem allocBefore_lt_of_alloc (st0 : LogState) {h k : ℕ} (hk : h < k)
    (ha : isAlloc st0 h = true) : allocBefore st0 h < allocBefore st0 k := by
  have h1 : allocBefore st0 (h + 1) = allocBefore st0 h + 1 := by
    rw [allocBefore_succ, ha]
    simp
  have h2 : allocBefore st0 (h + 1) ≤ allocBefore st0 k := allocBefore_mono st0 hk
  omega


/-! ## Evaluation lemmas for one update_link step -/

theorem ContinuingLogItem.ext {a b : ContinuingLogItem}
    (h1 : a.name = b.name) (h2 : a.start_str = b.start_str) (h3 : a.end_str = b.end_str)
    (h4 : a.index = b.index) (h5 : a.is_continued = b.is_continued)
    (h6 : a.previous_log = b.previous_log) (h7 : a.next_log = b.next_log)
    (h8 : a.plan = b.plan) (h9 : a.backup_plan = b.backup_plan) : a = b := by
  cases a
  cases b
  simp only at h1 h2 h3 h4 h5 h6 h7 h8 h9
  subst h1 h2 h3 h4 h5 h6 h7 h8 h9
  rfl

theorem cont_update_eq {e : ContinuingLogItem} {b : Bool} (h : e.is_continued = b) :
    { e with is_continued := b } = e := by
  cases e
  cases h
  rfl

theorem plan_update_self (p : TwoStagePlanItem) :
    { p with is_marked := p.is_marked } = p := by
  cases p
  rfl

theorem clear_entry_self (st : LogState) (k : ℕ) (hk : k < st.entries.length) :
    (clear_link_state st k).entry k =
      { st.entry k with previous_log := none, next_log := none } :=
  LogState.entry_setEntry_self st k _ hk

theorem clear_entry_ne (st : LogState) (k m : ℕ) (hm : k ≠ m) :
    (clear_link_state st k).entry m = st.entry m :=
  LogState.entry_setEntry_ne st k m _ hm

theorem clear_heap (st : LogState) (k : ℕ) : (clear_link_state st k).heap = st.heap := rfl

theorem clear_length (st : LogState) (k : ℕ) :
    (clear_link_state st k).entries.length = st.entries.length :=
  LogState.length_setEntry st k _

theorem clear_name (st : LogState) (k m : ℕ) :
    ((clear_link_state st k).entry m).name = (st.entry m).name := by
  by_cases hm : k = m
  · subst hm
    by_cases hk : k < st.entries.length
    · rw [clear_entry_self st k hk]
    · unfold clear_link_state LogState.setEntry LogState.entry
      rw [List.set_eq_of_length_le (le_of_not_lt hk)]
  · rw [clear_entry_ne st k m hm]

theorem sameNameBefore_congr {st1 st2 : LogState}
    (h : ∀ m, (st1.entry m).name = (st2.entry m).name) (i : ℕ) :
    sameNameBefore st1 i = sameNameBefore st2 i := by
  unfold sameNameBefore
  exact List.filter_congr (fun j _ => by rw [h j, h i])

theorem prevSame_eq_getLast_sameNameBefore (st : LogState) (i : ℕ) :
    prevSame st i = (sameNameBefore st i).getLast? := rfl

theorem setIsContinued_true_of_true {st : LogState} {k : ℕ}
    (hcont : (st.entry k).is_continued = true) : setIsContinued st k true = st := by
  unfold setIsContinued
  simp only [hcont]
  norm_num
  rw [cont_update_eq hcont, LogState.setEntry_entry_self]

theorem setIsContinued_false_of_false {st : LogState} {k : ℕ}
    (hcont : (st.entry k).is_continued = false) : setIsContinued st k false = st := by
  unfold setIsContinued
  simp only [hcont]
  norm_num
  rw [cont_update_eq hcont, LogState.setEntry_entry_self]

theorem setIsContinued_false_of_true {st : LogState} {k : ℕ}
    (hcont : (st.entry k).is_continued = true) :
    setIsContinued st k false =
      (st.setEntry k
        { st.entry k with is_continued := false, plan := st.heap.length }).pushPlan
        (st.planAt (st.entry k).backup_plan) := by
  unfold setIsContinued
  simp only [hcont]
  norm_num

theorem insert_eval {st : LogState} {k j : ℕ} (hk : k < st.entries.length)
    (hj : j < st.entries.length) (hjk : j ≠ k)
    (hcont : (st.entry k).is_continued = true) (hjnext : (st.entry j).next_log = none) :
    insert_to_linked_list st k j =
      (st.setEntry k { st.entry k with previous_log := some j, next_log := none }).setEntry j
        { st.entry j with next_log := some k } := by
  unfold insert_to_linked_list
  rw [setIsContinued_true_of_true hcont]
  simp only
  rw [hjnext]
  have h1 : ((st.setEntry k { st.entry k with previous_log := some j, next_log := none }).entry j)
      = st.entry j := LogState.entry_setEntry_ne st k j _ (fun he => hjk he.symm)
  rw [h1]

theorem update_link_step_continued {prev : List LogInput} {st : LogState} {k j : ℕ}
    (hk : k < st.entries.length)
    (hgl : (sameNameBefore st k).getLast? = some j)
    (hcont : (st.entry k).is_continued = true)
    (hjk : j < k)
    (hjn : (st.entry j).next_log = none) :
    (update_link_step prev st k).heap = st.heap ∧
    (update_link_step prev st k).entries.length = st.entries.length ∧
    ∀ m, (update_link_step prev st k).entry m =
      if m = k then
        { st.entry k with previous_log := some j, next_log := none, plan := (st.entry j).plan }
      else if m = j then { st.entry j with next_log := some k }
      else st.entry m := by
  have hjlt : j < st.entries.length := lt_trans hjk hk
  have hjk2 : j ≠ k := Nat.ne_of_lt hjk
  have hscl : sameNameBefore (clear_link_state st k) k = sameNameBefore st k :=
    sameNameBefore_congr (fun m => clear_name st k m) k
  have hck : ((clear_link_state st k).entry k).is_continued = true := by
    rw [clear_entry_self st k hk]
    exact hcont
  have hcjne : (clear_link_state st k).entry j = st.entry j := clear_entry_ne st k j hjk2.symm
  simp only [update_link_step]
  rw [hscl, hgl]
  simp only [hck, if_true]
  have hcjnext : ((clear_link_state st k).entry j).next_log = none := by
    rw [hcjne, hjn]
  have hlen : (clear_link_state st k).entries.length = st.entries.length := clear_length st k
  rw [insert_eval (by rw [hlen]; exact hk) (by rw [hlen]; exact hjlt) hjk2 hck hcjnext]
  have hclk : (clear_link_state st k).entry k =
      { st.entry k with previous_log := none, next_log := none } := clear_entry_self st k hk
  rw [hclk, hcjne]
  set A : ContinuingLogItem :=
    { st.entry k with previous_log := some j, next_log := none } with hA
  set B : ContinuingLogItem := { st.entry j with next_log := some k } with hB
  set X : LogState := ((clear_link_state st k).setEntry k A).setEntry j B with hX
  have hlenX : X.entries.length = st.entries.length := by
    rw [hX, LogState.length_setEntry, LogState.length_setEntry, hlen]
  have hXj : X.entry j = B := by
    rw [hX]
    exact LogState.entry_setEntry_self _ j B
      (by rw [LogState.length_setEntry, hlen]; exact hjlt)
  have hXk : X.entry k = A := by
    rw [hX, LogState.entry_setEntry_ne _ j k B hjk2]
    exact LogState.entry_setEntry_self _ k A (by rw [hlen]; exact hk)
  rw [hXk, hXj]
  have hBplan : B.plan = (st.entry j).plan := by rw [hB]
  refine ⟨rfl, by rw [LogState.length_setEntry, hlenX], fun m => ?_⟩
  by_cases hmk : m = k
  · subst hmk
    rw [LogState.entry_setEntry_self X m _ (by rw [hlenX]; exact hk)]
    rw [hBplan]
    simp
  · by_cases hmj : m = j
    · subst hmj
      rw [LogState.entry_setEntry_ne X k m _ (fun he => hmk he.symm), hXj]
      simp only [if_neg hmk, if_pos rfl]
      rfl
    · rw [LogState.entry_setEntry_ne X k m _ (fun he => hmk he.symm), hX,
        LogState.entry_setEntry_ne _ j m B (fun he => hmj he.symm),
        LogState.entry_setEntry_ne _ k m A (fun he => hmk he.symm),
        clear_entry_ne st k m (fun he => hmk he.symm)]
      simp [hmk, hmj]

theorem update_link_step_else {prev : List LogInput} {st : LogState} {k : ℕ}
    (hor : (sameNameBefore st k).getLast? = none ∨ (st.entry k).is_continued = false) :
    update_link_step prev st k =
      markElseBranch prev (clear_link_state st k) k (sameNameBefore st k) := by
  have hscl : sameNameBefore (clear_link_state st k) k = sameNameBefore st k :=
    sameNameBefore_congr (fun m => clear_name st k m) k
  simp only [update_link_step]
  rw [hscl]
  rcases hor with hnone | hcont
  · rw [hnone]
  · rcases hgl : (sameNameBefore st k).getLast? with _ | j
    · rfl
    · have hck : ((clear_link_state st k).entry k).is_continued = false := by
        by_cases hk : k < st.entries.length
        · rw [clear_entry_self st k hk]
          exact hcont
        · unfold clear_link_state LogState.setEntry LogState.entry
          rw [List.set_eq_of_length_le (le_of_not_lt hk)]
          exact hcont
      simp [hck]

/-! ## nextBefore and headCell bounds -/

theorem nextBefore_eq_none_of_le {st0 : LogState} {kk m : ℕ} (h : kk ≤ m + 1) :
    nextBefore st0 kk m = none := by
  unfold nextBefore
  rcases hns : nextSame st0 m with _ | t
  · simp
  · have := (nextSame_spec hns).2.1
    simp only [hns]
    rw [if_neg (by omega)]

theorem nextBefore_succ_of_ne {st0 : LogState} {k m : ℕ} (hne : nextSame st0 m ≠ some k) :
    nextBefore st0 (k + 1) m = nextBefore st0 k m := by
  unfold nextBefore
  rcases hns : nextSame st0 m with _ | t
  · simp
  · have htk : t ≠ k := by
      intro he
      exact hne (by rw [hns, he])
    simp only [hns]
    exact if_congr (and_congr_left' (by omega)) rfl rfl

theorem nextBefore_succ_of_contOut_false {st0 : LogState} {k : ℕ}
    (hc : contOut st0 k = false) (m : ℕ) :
    nextBefore st0 (k + 1) m = nextBefore st0 k m := by
  unfold nextBefore
  rcases hns : nextSame st0 m with _ | t
  · simp
  · simp only [hns]
    by_cases htk : t = k
    · subst htk
      rw [if_neg (by simp [hc]), if_neg (by omega)]
    · exact if_congr (and_congr_left' (by omega)) rfl rfl

theorem nextBefore_succ_self {st0 : LogState} {k m : ℕ} (hns : nextSame st0 m = some k)
    (hc : contOut st0 k = true) : nextBefore st0 (k + 1) m = some k := by
  unfold nextBefore
  simp only [hns]
  rw [if_pos ⟨by omega, hc⟩]

theorem headCell_lt_of {st0 : LogState} (hrefs : ValidRefs st0) {h k : ℕ} (hh : h < k)
    (hk : k ≤ st0.entries.length) (hhead : contOut st0 h = false) :
    headCell st0 h < st0.heap.length + allocBefore st0 k := by
  unfold headCell
  by_cases hci : contIn st0 h
  · rw [if_pos hci]
    have halloc : isAlloc st0 h = true := by
      unfold isAlloc
      unfold contOut at hhead
      rcases hps : prevSame st0 h with _ | p
      · simp [hci, hps]
      · rw [hps] at hhead
        simp [hci] at hhead
    have := allocBefore_lt_of_alloc st0 hh halloc
    omega
  · rw [if_neg hci]
    have := (hrefs h (by omega)).1
    omega

theorem planAt_eq_of_heap_eq {st1 st2 : LogState} (h : st1.heap = st2.heap) (c : ℕ) :
    st1.planAt c = st2.planAt c := by
  unfold LogState.planAt
  rw [h]

/-! ## The master invariant of the update_link pass -/

/-- State after the steps for positions below k: processed entries carry
their final links and plan references (with forward links only to
already processed successors), unprocessed entries are untouched,
allocBefore k fresh cells exist, processed head cells carry their final
contents and all other old cells are untouched. -/
def Invariant (prev : List LogInput) (st0 : LogState) (k : ℕ) (st : LogState) : Prop :=
  st.entries.length = st0.entries.length ∧
  (∀ j, k ≤ j → st.entry j = st0.entry j) ∧
  (∀ j, j < k → st.entry j = outEntry st0 k j) ∧
  st.heap.length = st0.heap.length + allocBefore st0 k ∧
  (∀ h, h < k → contOut st0 h = false → st.planAt (headCell st0 h) = finalCell prev st0 h) ∧
  (∀ c, c < st0.heap.length →
    (∀ h, h < k → contOut st0 h = false → headCell st0 h ≠ c) → st.planAt c = st0.planAt c)

theorem invariant_init (prev : List LogInput) (st0 : LogState) : Invariant prev st0 0 st0 := by
  refine ⟨rfl, fun j _ => rfl, fun j hj => absurd hj (by omega), ?_, fun h hh _ => absurd hh (by omega),
    fun c _ _ => rfl⟩
  simp [allocBefore]

theorem invariant_names {prev : List LogInput} {st0 : LogState} {k : ℕ} {st : LogState}
    (hInv : Invariant prev st0 k st) : ∀ m, (st.entry m).name = (st0.entry m).name := by
  intro m
  by_cases hm : m < k
  · rw [hInv.2.2.1 m hm]
    rfl
  · rw [hInv.2.1 m (le_of_not_lt hm)]

theorem invariant_step_continued {prev : List LogInput} {st0 : LogState} {k : ℕ} {st : LogState}
    (hInv : Invariant prev st0 k st) (hk : k < st0.entries.length)
    {j : ℕ} (hps : prevSame st0 k = some j) (hci : contIn st0 k = true) :
    Invariant prev st0 (k + 1) (update_link_step prev st k) := by
  obtain ⟨hlen, hge, hlt, hhplen, hcells, hframe⟩ := hInv
  have hjk : j < k := prevSame_lt hps
  have hek : st.entry k = st0.entry k := hge k (le_refl k)
  have hsnb : sameNameBefore st k = sameNameBefore st0 k :=
    sameNameBefore_congr (invariant_names ⟨hlen, hge, hlt, hhplen, hcells, hframe⟩) k
  have hglj : (sameNameBefore st k).getLast? = some j := by
    rw [hsnb, ← prevSame_eq_getLast_sameNameBefore, hps]
  have hcontk : (st.entry k).is_continued = true := by
    rw [hek]
    exact hci
  have hjentry : st.entry j = outEntry st0 k j := hlt j hjk
  have hns : nextSame st0 j = some k := prevSame_nextSame hk hps
  have hjnext : (st.entry j).next_log = none := by
    rw [hjentry]
    show nextBefore st0 k j = none
    unfold nextBefore
    simp only [hns]
    rw [if_neg (by omega)]
  have hcontOutk : contOut st0 k = true := by
    unfold contOut
    rw [hps, hci]
    rfl
  have hallock : isAlloc st0 k = false := by
    unfold isAlloc
    rw [hps]
    simp
  obtain ⟨hheap, hlen2, hent⟩ :=
    @update_link_step_continued prev st k j (by rw [hlen]; exact hk) hglj hcontk hjk hjnext
  have hplanj : (st.entry j).plan = planRefOut st0 j := by
    rw [hjentry]
    rfl
  refine ⟨by rw [hlen2, hlen], ?_, ?_, ?_, ?_, ?_⟩
  · intro m hm
    rw [hent m, if_neg (by omega), if_neg (by omega)]
    exact hge m (by omega)
  · intro m hm
    rw [hent m]
    by_cases hmk : m = k
    · subst hmk
      rw [if_pos rfl, hek, hplanj]
      refine ContinuingLogItem.ext rfl rfl rfl rfl ?_ ?_ ?_ ?_ rfl
      · show (st0.entry m).is_continued = contOut st0 m
        rw [hcontOutk]
        exact hci
      · show some j = prevOut st0 m
        unfold prevOut
        rw [if_pos hcontOutk, hps]
      · show (none : Option ℕ) = nextBefore st0 (m + 1) m
        rw [nextBefore_eq_none_of_le (le_refl (m + 1))]
      · show planRefOut st0 j = planRefOut st0 m
        unfold planRefOut
        rw [chainHead_of_contOut_true hps hci]
    · by_cases hmj : m = j
      · subst hmj
        rw [if_neg hmk, if_pos rfl, hjentry]
        refine ContinuingLogItem.ext rfl rfl rfl rfl rfl rfl ?_ rfl rfl
        show (some k : Option ℕ) = nextBefore st0 (k + 1) m
        rw [nextBefore_succ_self hns hcontOutk]
      · rw [if_neg hmk, if_neg hmj, hlt m (by omega)]
        refine ContinuingLogItem.ext rfl rfl rfl rfl rfl rfl ?_ rfl rfl
        show nextBefore st0 k m = nextBefore st0 (k + 1) m
        rw [nextBefore_succ_of_ne (fun hne => hmj (by
          have := nextSame_prevSame hne
          rw [hps] at this
          injection this with h2
          exact h2.symm))]
  · have : (update_link_step prev st k).heap.length = st.heap.length := by rw [hheap]
    rw [this, hhplen, allocBefore_succ, hallock]
    simp
  · intro h hh hhead
    rw [planAt_eq_of_heap_eq hheap]
    by_cases hhk : h = k
    · subst hhk
      rw [hcontOutk] at hhead
      cases hhead
    · exact hcells h (by omega) hhead
  · intro c hc hnc
    rw [planAt_eq_of_heap_eq hheap]
    exact hframe c hc (fun h hh hhead => hnc h (by omega) hhead)

theorem invariant_step_else {prev : List LogInput} {st0 : LogState} {k : ℕ} {st : LogState}
    (hInv : Invariant prev st0 k st) (hv : ValidState st0) (hk : k < st0.entries.length)
    (hec : contOut st0 k = false) :
    Invariant prev st0 (k + 1) (update_link_step prev st k) := by
  obtain ⟨hlen, hge, hlt, hhplen, hcells, hframe⟩ := hInv
  obtain ⟨hrefs, hinj, hbf⟩ := hv
  have hek : st.entry k = st0.entry k := hge k (le_refl k)
  have hk2 : k < st.entries.length := by rw [hlen]; exact hk
  have hsnb : sameNameBefore st k = sameNameBefore st0 k :=
    sameNameBefore_congr (invariant_names ⟨hlen, hge, hlt, hhplen, hcells, hframe⟩) k
  have hglast : (sameNameBefore st k).getLast? = prevSame st0 k := by
    rw [hsnb]
    rfl
  have hor : (sameNameBefore st k).getLast? = none ∨ (st.entry k).is_continued = false := by
    unfold contOut at hec
    rcases hps : prevSame st0 k with _ | j
    · left
      rw [hglast, hps]
    · right
      rw [hps] at hec
      simp only [Option.isSome_some, Bool.true_and] at hec
      rw [hek]
      exact hec
  rw [update_link_step_else hor]
  have hcellK : planRefOut st0 k = headCell st0 k := by
    unfold planRefOut
    rw [chainHead_of_contOut_false hec]
  have hkn1 : k + 1 ≤ st0.entries.length := hk
  have hck_entry : (clear_link_state st k).entry k =
      { st0.entry k with previous_log := none, next_log := none } := by
    rw [clear_entry_self st k hk2, hek]
  have hcheap : (clear_link_state st k).heap = st.heap := rfl
  have hclen : (clear_link_state st k).entries.length = st.entries.length := clear_length st k
  simp only [markElseBranch]
  generalize hst1 : setIsContinued (clear_link_state st k) k false = st1
  have hkeep : ∀ m, m ≠ k → st1.entry m = st.entry m → st1.entry m = st.entry m := fun _ _ h => h
  -- facts about st1, by cases on whether the entry entered the pass continued
  have hfacts :
      (∀ m, m ≠ k → st1.entry m = st.entry m) ∧
      st1.entry k = outEntry st0 (k + 1) k ∧
      st1.entries.length = st.entries.length ∧
      st1.heap.length = st0.heap.length + allocBefore st0 (k + 1) ∧
      st1.planAt (headCell st0 k) = baseCell st0 k ∧
      (∀ c, c < st.heap.length → st1.planAt c = st.planAt c) := by
    have houtk : outEntry st0 (k + 1) k =
        ⟨nameOf st0 k, (st0.entry k).start_str, (st0.entry k).end_str, (st0.entry k).index,
          false, none, none, headCell st0 k, (st0.entry k).backup_plan⟩ := by
      unfold outEntry
      rw [hec, hcellK]
      congr 1
      · unfold prevOut
        rw [hec]
        simp
      · rw [nextBefore_eq_none_of_le (le_refl (k + 1))]
    by_cases hci : contIn st0 k = true
    · -- restored: the True→False setter allocates a copy of the backup plan
      have hpsn : prevSame st0 k = none := by
        unfold contOut at hec
        rcases hps : prevSame st0 k with _ | j
        · rfl
        · rw [hps] at hec
          simp only [Option.isSome_some, Bool.true_and] at hec
          rw [hec] at hci
          cases hci
      have halloc : isAlloc st0 k = true := by
        unfold isAlloc
        rw [hci, hpsn]
        rfl
      have hcck : ((clear_link_state st k).entry k).is_continued = true := by
        rw [hck_entry]
        exact hci
      rw [setIsContinued_false_of_true hcck] at hst1
      have hchl : (clear_link_state st k).heap.length = headCell st0 k := by
        rw [hcheap, hhplen]
        unfold headCell
        rw [if_pos hci]
      have hbackup : ((clear_link_state st k).entry k).backup_plan
          = (st0.entry k).backup_plan := by
        rw [hck_entry]
      have hpushed : (clear_link_state st k).planAt ((clear_link_state st k).entry k).backup_plan
          = baseCell st0 k := by
        rw [hbackup]
        have h1 : (clear_link_state st k).planAt (st0.entry k).backup_plan
            = st.planAt (st0.entry k).backup_plan := planAt_eq_of_heap_eq hcheap _
        rw [h1, hframe _ (hrefs k hk).2
          (fun h hh hhead => hbf k hk halloc h hh hhead)]
        unfold baseCell
        rw [if_pos hci]
      constructor
      · intro m hm
        rw [← hst1, LogState.entry_pushPlan, LogState.entry_setEntry_ne _ k m _ (fun he => hm he.symm),
          clear_entry_ne st k m (fun he => hm he.symm)]
      constructor
      · rw [← hst1, LogState.entry_pushPlan,
          LogState.entry_setEntry_self _ k _ (by rw [hclen]; exact hk2), hck_entry, houtk, hchl]
        rfl
      constructor
      · rw [← hst1, LogState.entries_pushPlan, LogState.length_setEntry, hclen]
      constructor
      · rw [← hst1, LogState.heapLength_pushPlan, LogState.heap_setEntry, hcheap, hhplen,
          allocBefore_succ, halloc]
        simp
        omega
      constructor
      · have hlenY : ((clear_link_state st k).setEntry k { (clear_link_state st k).entry k with is_continued := false, plan := (clear_link_state st k).heap.length }).heap.length = headCell st0 k := by
          rw [LogState.heap_setEntry, hchl]
        rw [← hst1, ← hlenY, LogState.planAt_pushPlan_len]
        exact hpushed
      · intro c hc
        have hcY : c < ((clear_link_state st k).setEntry k { (clear_link_state st k).entry k with is_continued := false, plan := (clear_link_state st k).heap.length }).heap.length := by
          rw [LogState.heap_setEntry, hcheap]
          exact hc
        rw [← hst1, LogState.planAt_pushPlan_lt _ _ _ hcY]
        exact planAt_eq_of_heap_eq (by rw [LogState.heap_setEntry]; exact hcheap) c
    · -- the entry was not continued: no allocation, nothing changes
      have hcif : contIn st0 k = false := by simpa using hci
      have halloc : isAlloc st0 k = false := by
        unfold isAlloc
        rw [hcif]
        rfl
      have hcck : ((clear_link_state st k).entry k).is_continued = false := by
        rw [hck_entry]
        exact hcif
      rw [setIsContinued_false_of_false hcck] at hst1
      have hplan0 : (st0.entry k).plan = headCell st0 k := by
        unfold headCell
        rw [if_neg hci]
      constructor
      · intro m hm
        rw [← hst1, clear_entry_ne st k m (fun he => hm he.symm)]
      constructor
      · rw [← hst1, hck_entry, houtk]
        refine ContinuingLogItem.ext rfl rfl rfl rfl ?_ rfl rfl ?_ rfl
        · exact hcif
        · exact hplan0
      constructor
      · rw [← hst1, hclen]
      constructor
      · rw [← hst1]
        show st.heap.length = st0.heap.length + allocBefore st0 (k + 1)
        rw [hhplen, allocBefore_succ, halloc]
        simp
      constructor
      · have h1 : st1.planAt (headCell st0 k) = st.planAt (headCell st0 k) := by
          rw [← hst1]
          exact planAt_eq_of_heap_eq hcheap _
        rw [h1, ← hplan0, hframe _ (hrefs k hk).1 (fun h hh hhead heq =>
          absurd (hinj h k (by omega) hk hhead hec (heq.trans hplan0)) (by omega))]
        unfold baseCell
        rw [if_neg hci, hplan0]
      · intro c hc
        rw [← hst1]
        exact planAt_eq_of_heap_eq hcheap c
  obtain ⟨hentne, hkent, hlen1, hhl1, hbase, hfr1⟩ := hfacts
  have hplank : (st1.entry k).plan = headCell st0 k := by
    rw [hkent]
    show planRefOut st0 k = headCell st0 k
    exact hcellK
  rw [hplank, hbase]
  have hcellK_lt1 : headCell st0 k < st1.heap.length := by
    rw [hhl1]
    exact headCell_lt_of hrefs (by omega) hkn1 hec
  have hhead_lt_st : ∀ h, h < k → contOut st0 h = false → headCell st0 h < st.heap.length := by
    intro h hh hhead
    rw [hhplen]
    exact headCell_lt_of hrefs hh (by omega) hhead
  have houter : ∀ m, m < k → st.entry m = outEntry st0 (k + 1) m := by
    intro m hm
    rw [hlt m hm]
    refine ContinuingLogItem.ext rfl rfl rfl rfl rfl rfl ?_ rfl rfl
    show nextBefore st0 k m = nextBefore st0 (k + 1) m
    rw [nextBefore_succ_of_contOut_false hec]
  by_cases hset : (baseCell st0 k).is_mark_set = true
  · rw [if_neg (by rw [hset]; simp)]
    have hfinal : finalCell prev st0 k = baseCell st0 k := by
      unfold finalCell
      rw [markOut_of_mark_set hset, plan_update_self]
    refine ⟨by rw [hlen1, hlen], ?_, ?_, by rw [hhl1], ?_, ?_⟩
    · intro m hm
      rw [hentne m (by omega)]
      exact hge m (by omega)
    · intro m hm
      by_cases hmk : m = k
      · subst hmk
        exact hkent
      · rw [hentne m hmk]
        exact houter m (by omega)
    · intro h hh hhead
      by_cases hhk : h = k
      · subst hhk
        rw [hbase, hfinal]
      · rw [hfr1 _ (hhead_lt_st h (by omega) hhead)]
        exact hcells h (by omega) hhead
    · intro c hc hnc
      have h1 : st1.planAt c = st.planAt c := hfr1 c (by rw [hhplen]; omega)
      rw [h1]
      exact hframe c hc (fun h hh hhead => hnc h (by omega) hhead)
  · have hsetf : (baseCell st0 k).is_mark_set = false := by simpa using hset
    rw [if_pos hsetf]
    have hNM :
        (match (sameNameBefore st k).getLast? with
          | some j => (st1.planAt ((st1.entry j).plan)).is_marked
          | none =>
            match (prev.filter fun a_log => decide (a_log.name = (st1.entry k).name)).head? with
            | some p => p.plan.is_marked
            | none => false) = markOut prev st0 k := by
      rw [hglast]
      rcases hps : prevSame st0 k with _ | j
      · show archiveMark prev ((st1.entry k).name) = markOut prev st0 k
        have hname1 : (st1.entry k).name = nameOf st0 k := by
          rw [hkent]
          rfl
        rw [hname1]
        rw [markOut_of_not_set_none hsetf hps]
      · have hjk : j < k := prevSame_lt hps
        have hjplan : (st1.entry j).plan = planRefOut st0 j := by
          rw [hentne j (by omega), hlt j hjk]
          rfl
        have hhcj : contOut st0 (chainHead st0 j) = false := contOut_chainHead st0 j
        have hcjk : chainHead st0 j < k := lt_of_le_of_lt (chainHead_le st0 j) hjk
        have hcell : st1.planAt (planRefOut st0 j) = finalCell prev st0 (chainHead st0 j) := by
          have h1 : planRefOut st0 j = headCell st0 (chainHead st0 j) := rfl
          rw [h1, hfr1 _ (hhead_lt_st _ hcjk hhcj)]
          exact hcells _ hcjk hhcj
        show (st1.planAt ((st1.entry j).plan)).is_marked = markOut prev st0 k
        rw [hjplan, hcell]
        show markOut prev st0 (chainHead st0 j) = markOut prev st0 k
        rw [markOut_of_not_set_some hsetf hps]
    rw [hNM]
    have hfinal : ({ baseCell st0 k with is_marked := markOut prev st0 k } : TwoStagePlanItem)
        = finalCell prev st0 k := rfl
    rw [hfinal]
    refine ⟨?_, ?_, ?_, ?_, ?_, ?_⟩
    · show (st1.setPlan (headCell st0 k) (finalCell prev st0 k)).entries.length = _
      rw [LogState.entries_setPlan, hlen1, hlen]
    · intro m hm
      rw [LogState.entry_setPlan, hentne m (by omega)]
      exact hge m (by omega)
    · intro m hm
      rw [LogState.entry_setPlan]
      by_cases hmk : m = k
      · subst hmk
        exact hkent
      · rw [hentne m hmk]
        exact houter m (by omega)
    · show (st1.setPlan (headCell st0 k) (finalCell prev st0 k)).heap.length = _
      rw [LogState.heapLength_setPlan, hhl1]
    · intro h hh hhead
      by_cases hhk : h = k
      · subst hhk
        rw [LogState.planAt_setPlan_self _ _ _ hcellK_lt1]
      · have hne : headCell st0 k ≠ headCell st0 h := fun heq =>
          absurd (hinj k h hk (by omega) hec hhead heq) (by omega)
        rw [LogState.planAt_setPlan_ne _ _ _ _ hne,
          hfr1 _ (hhead_lt_st h (by omega) hhead)]
        exact hcells h (by omega) hhead
    · intro c hc hnc
      have hne : headCell st0 k ≠ c := hnc k (by omega) hec
      rw [LogState.planAt_setPlan_ne _ _ _ _ hne, hfr1 c (by rw [hhplen]; omega)]
      exact hframe c hc (fun h hh hhead => hnc h (by omega) hhead)

theorem invariant_step {prev : List LogInput} {st0 : LogState} {k : ℕ} {st : LogState}
    (hInv : Invariant prev st0 k st) (hv : ValidState st0) (hk : k < st0.entries.length) :
    Invariant prev st0 (k + 1) (update_link_step prev st k) := by
  rcases hps : prevSame st0 k with _ | j
  · refine invariant_step_else hInv hv hk ?_
    unfold contOut
    rw [hps]
    rfl
  · by_cases hci : contIn st0 k = true
    · exact invariant_step_continued hInv hk hps hci
    · refine invariant_step_else hInv hv hk ?_
      unfold contOut
      simp [hci]

theorem invariant_fold (prev : List LogInput) (st0 : LogState) (hv : ValidState st0) :
    ∀ k, k ≤ st0.entries.length →
      Invariant prev st0 k ((List.range k).foldl (update_link_step prev) st0) := by
  intro k
  induction k with
  | zero => intro _; exact invariant_init prev st0
  | succ k ih =>
    intro hk
    rw [List.range_succ, List.foldl_append]
    exact invariant_step (ih (by omega)) hv (by omega)

/-- The master theorem: a single update_link pass on a well-formed state
produces exactly the entries and plan cells predicted by the spec-side
functions contOut, prevOut, nextOut, planRefOut and markOut. -/
theorem update_link_spec (prev : List LogInput) (st0 : LogState) (hv : ValidState st0) :
    Invariant prev st0 st0.entries.length (update_link prev st0) := by
  unfold update_link
  exact invariant_fold prev st0 hv st0.entries.length (le_refl _)

/-- Entries after the pass, in closed form: nextBefore at fuel n equals
nextOut for in-range successors. -/
theorem update_link_entry (prev : List LogInput) (st0 : LogState) (hv : ValidState st0)
    {i : ℕ} (hi : i < st0.entries.length) :
    (update_link prev st0).entry i =
      ⟨nameOf st0 i, (st0.entry i).start_str, (st0.entry i).end_str, (st0.entry i).index,
        contOut st0 i, prevOut st0 i, nextOut st0 i, planRefOut st0 i,
        (st0.entry i).backup_plan⟩ := by
  have h := (update_link_spec prev st0 hv).2.2.1 i hi
  rw [h]
  refine ContinuingLogItem.ext rfl rfl rfl rfl rfl rfl ?_ rfl rfl
  show nextBefore st0 st0.entries.length i = nextOut st0 i
  unfold nextBefore nextOut
  rcases hns : nextSame st0 i with _ | t
  · simp
  · simp only [hns]
    have htn : t < st0.entries.length := (nextSame_spec hns).1
    by_cases hc : contOut st0 t = true
    · rw [if_pos ⟨htn, hc⟩, if_pos hc]
    · rw [if_neg (by tauto), if_neg hc]

/-! ## The freshly constructed state is well formed -/

theorem initState_length (l : List LogInput) : (initState l).entries.length = l.length := by
  simp [initState, List.length_mapIdx]

theorem initState_heapLength (l : List LogInput) : (initState l).heap.length = l.length := by
  simp [initState]

theorem initState_entry (l : List LogInput) {i : ℕ} (hi : i < l.length) :
    (initState l).entry i =
      ⟨(l.get ⟨i, hi⟩).name, (l.get ⟨i, hi⟩).start_str, (l.get ⟨i, hi⟩).end_str,
        (l.get ⟨i, hi⟩).index, (l.get ⟨i, hi⟩).is_continued, none, none, i, i⟩ := by
  unfold initState LogState.entry
  simp only
  rw [List.getD_eq_getElem _ _ (by simpa [List.length_mapIdx] using hi)]
  rw [List.getElem_mapIdx]
  simp [List.get_eq_getElem]

theorem initState_planAt (l : List LogInput) {i : ℕ} (hi : i < l.length) :
    (initState l).planAt i = (l.get ⟨i, hi⟩).plan := by
  unfold initState LogState.planAt
  simp only
  rw [List.getD_eq_getElem _ _ (by simpa using hi)]
  simp [List.get_eq_getElem]

theorem initState_plan_ref (l : List LogInput) {i : ℕ} (hi : i < (initState l).entries.length) :
    ((initState l).entry i).plan = i ∧ ((initState l).entry i).backup_plan = i := by
  rw [initState_length] at hi
  rw [initState_entry l hi]
  exact ⟨rfl, rfl⟩

theorem headCell_initState {l : List LogInput} {h : ℕ} (hh : h < (initState l).entries.length) :
    headCell (initState l) h =
      if contIn (initState l) h then (initState l).heap.length + allocBefore (initState l) h
      else h := by
  unfold headCell
  by_cases hc : contIn (initState l) h
  · rw [if_pos hc, if_pos hc]
  · rw [if_neg hc, if_neg hc, (initState_plan_ref l hh).1]

theorem contIn_head_isAlloc {st0 : LogState} {h : ℕ} (hhead : contOut st0 h = false)
    (hci : contIn st0 h = true) : isAlloc st0 h = true ∧ prevSame st0 h = none := by
  unfold contOut at hhead
  rcases hps : prevSame st0 h with _ | p
  · constructor
    · unfold isAlloc
      rw [hci, hps]
      rfl
    · rfl
  · rw [hps, hci] at hhead
    simp at hhead

theorem validState_initState (l : List LogInput) : ValidState (initState l) := by
  have hlen := initState_length l
  have hheap := initState_heapLength l
  refine ⟨?_, ?_, ?_⟩
  · intro i hi
    have := initState_plan_ref l hi
    rw [this.1, this.2, hheap, ← hlen]
    exact ⟨hi, hi⟩
  · intro h1 h2 hh1 hh2 hhead1 hhead2 heq
    rw [headCell_initState hh1, headCell_initState hh2] at heq
    by_cases hc1 : contIn (initState l) h1 <;> by_cases hc2 : contIn (initState l) h2
    · rw [if_pos hc1, if_pos hc2] at heq
      by_contra hne
      have ha1 := (contIn_head_isAlloc hhead1 hc1).1
      have ha2 := (contIn_head_isAlloc hhead2 hc2).1
      rcases lt_or_gt_of_ne hne with hlt2 | hlt2
      · have := allocBefore_lt_of_alloc (initState l) hlt2 ha1
        omega
      · have := allocBefore_lt_of_alloc (initState l) hlt2 ha2
        omega
    · rw [if_pos hc1, if_neg hc2] at heq
      rw [hheap, ← hlen] at heq
      omega
    · rw [if_neg hc1, if_pos hc2] at heq
      rw [hheap, ← hlen] at heq
      omega
    · rw [if_neg hc1, if_neg hc2] at heq
      exact heq
  · intro i hi halloc h hh hhead
    rw [(initState_plan_ref l hi).2, headCell_initState (by omega)]
    by_cases hc : contIn (initState l) h
    · rw [if_pos hc]
      rw [hheap, ← hlen] at *
      omega
    · rw [if_neg hc]
      omega

/-! ## A second pass changes nothing: the spec-side functions of the
output state coincide with those of the input state -/

theorem ul_name (prev : List LogInput) (st0 : LogState) (hv : ValidState st0) (i : ℕ) :
    nameOf (update_link prev st0) i = nameOf st0 i := by
  by_cases hi : i < st0.entries.length
  · unfold nameOf
    rw [update_link_entry prev st0 hv hi]
    rfl
  · unfold nameOf
    rw [(update_link_spec prev st0 hv).2.1 i (le_of_not_lt hi)]

theorem ul_prevSame (prev : List LogInput) (st0 : LogState) (hv : ValidState st0) (i : ℕ) :
    prevSame (update_link prev st0) i = prevSame st0 i := by
  unfold prevSame
  congr 1
  apply List.filter_congr
  intro j _
  rw [ul_name prev st0 hv j, ul_name prev st0 hv i]

theorem ul_nextSame (prev : List LogInput) (st0 : LogState) (hv : ValidState st0) (i : ℕ) :
    nextSame (update_link prev st0) i = nextSame st0 i := by
  unfold nextSame
  rw [(update_link_spec prev st0 hv).1]
  congr 1
  apply List.filter_congr
  intro j _
  rw [ul_name prev st0 hv j, ul_name prev st0 hv i]

theorem ul_contIn (prev : List LogInput) (st0 : LogState) (hv : ValidState st0) {i : ℕ}
    (hi : i < st0.entries.length) : contIn (update_link prev st0) i = contOut st0 i := by
  unfold contIn
  rw [update_link_entry prev st0 hv hi]

theorem ul_contOut (prev : List LogInput) (st0 : LogState) (hv : ValidState st0) {i : ℕ}
    (hi : i < st0.entries.length) : contOut (update_link prev st0) i = contOut st0 i := by
  unfold contOut
  rw [ul_prevSame prev st0 hv i, ul_contIn prev st0 hv hi]
  cases hb : (prevSame st0 i).isSome <;> simp [contOut, hb]

theorem ul_isAlloc (prev : List LogInput) (st0 : LogState) (hv : ValidState st0) {i : ℕ}
    (hi : i < st0.entries.length) : isAlloc (update_link prev st0) i = false := by
  unfold isAlloc
  rw [ul_prevSame prev st0 hv i, ul_contIn prev st0 hv hi]
  unfold contOut
  rcases hps : prevSame st0 i with _ | p <;> simp

theorem ul_allocBefore (prev : List LogInput) (st0 : LogState) (hv : ValidState st0) {k : ℕ}
    (hk : k ≤ st0.entries.length) : allocBefore (update_link prev st0) k = 0 := by
  unfold allocBefore
  rw [List.length_eq_zero, List.filter_eq_nil]
  intro j hj
  rw [List.mem_range] at hj
  simp [ul_isAlloc prev st0 hv (lt_of_lt_of_le hj hk)]

theorem ul_chainHead (prev : List LogInput) (st0 : LogState) (hv : ValidState st0) :
    ∀ {i : ℕ}, i < st0.entries.length →
    chainHead (update_link prev st0) i = chainHead st0 i := by
  intro i
  induction i using Nat.strong_induction_on with
  | _ i ih =>
    intro hi
    rcases hps : prevSame st0 i with _ | p
    · rw [chainHead_of_prevSame_none ((ul_prevSame prev st0 hv i).trans hps),
        chainHead_of_prevSame_none hps]
    · by_cases hc : contIn st0 i
      · have hc1 : contIn (update_link prev st0) i = true := by
          rw [ul_contIn prev st0 hv hi]
          unfold contOut
          simp [hps, hc]
        rw [chainHead_of_contOut_true ((ul_prevSame prev st0 hv i).trans hps) hc1,
          chainHead_of_contOut_true hps hc]
        exact ih p (prevSame_lt hps) (lt_trans (prevSame_lt hps) hi)
      · have hcf : contIn st0 i = false := by simpa using hc
        have hc1 : contIn (update_link prev st0) i = false := by
          rw [ul_contIn prev st0 hv hi]
          unfold contOut
          simp [hcf]
        rw [chainHead_of_contIn_false hc1, chainHead_of_contIn_false hcf]

theorem ul_headCell (prev : List LogInput) (st0 : LogState) (hv : ValidState st0) {h : ℕ}
    (hh : h < st0.entries.length) (hhead : contOut st0 h = false) :
    headCell (update_link prev st0) h = headCell st0 h := by
  have hc1 : contIn (update_link prev st0) h = false := by
    rw [ul_contIn prev st0 hv hh, hhead]
  have h1 : headCell (update_link prev st0) h = ((update_link prev st0).entry h).plan := by
    unfold headCell
    rw [if_neg (by simp [hc1])]
  rw [h1, update_link_entry prev st0 hv hh]
  show planRefOut st0 h = headCell st0 h
  unfold planRefOut
  rw [chainHead_of_contOut_false hhead]

theorem ul_planRefOut (prev : List LogInput) (st0 : LogState) (hv : ValidState st0) {i : ℕ}
    (hi : i < st0.entries.length) :
    planRefOut (update_link prev st0) i = planRefOut st0 i := by
  unfold planRefOut
  rw [ul_chainHead prev st0 hv hi]
  exact ul_headCell prev st0 hv (chainHead_lt hi) (contOut_chainHead st0 i)

theorem ul_prevOut (prev : List LogInput) (st0 : LogState) (hv : ValidState st0) {i : ℕ}
    (hi : i < st0.entries.length) :
    prevOut (update_link prev st0) i = prevOut st0 i := by
  unfold prevOut
  rw [ul_contOut prev st0 hv hi, ul_prevSame prev st0 hv i]

theorem ul_nextOut (prev : List LogInput) (st0 : LogState) (hv : ValidState st0) {i : ℕ}
    (hi : i < st0.entries.length) :
    nextOut (update_link prev st0) i = nextOut st0 i := by
  unfold nextOut
  rw [ul_nextSame prev st0 hv i]
  rcases hns : nextSame st0 i with _ | t
  · simp only [hns]
  · simp only [hns]
    rw [ul_contOut prev st0 hv (nextSame_spec hns).1]

theorem ul_baseCell (prev : List LogInput) (st0 : LogState) (hv : ValidState st0) {h : ℕ}
    (hh : h < st0.entries.length) (hhead : contOut st0 h = false) :
    baseCell (update_link prev st0) h = finalCell prev st0 h := by
  have hc1 : contIn (update_link prev st0) h = false := by
    rw [ul_contIn prev st0 hv hh, hhead]
  have h1 : baseCell (update_link prev st0) h =
      (update_link prev st0).planAt (((update_link prev st0).entry h).plan) := by
    unfold baseCell
    rw [if_neg (by simp [hc1])]
  rw [h1, update_link_entry prev st0 hv hh]
  show (update_link prev st0).planAt (planRefOut st0 h) = finalCell prev st0 h
  unfold planRefOut
  rw [chainHead_of_contOut_false hhead]
  exact (update_link_spec prev st0 hv).2.2.2.2.1 h hh hhead

theorem ul_markOut (prev : List LogInput) (st0 : LogState) (hv : ValidState st0) :
    ∀ {h : ℕ}, h < st0.entries.length → contOut st0 h = false →
    markOut prev (update_link prev st0) h = markOut prev st0 h := by
  intro h
  induction h using Nat.strong_induction_on with
  | _ h ih =>
    intro hh hhead
    have hbase := ul_baseCell prev st0 hv hh hhead
    by_cases hms : (baseCell st0 h).is_mark_set
    · have hset1 : (baseCell (update_link prev st0) h).is_mark_set = true := by
        rw [hbase]
        exact hms
      rw [markOut_of_mark_set hset1, hbase]
      rfl
    · have hms' : (baseCell st0 h).is_mark_set = false := by simpa using hms
      have hset1 : (baseCell (update_link prev st0) h).is_mark_set = false := by
        rw [hbase]
        exact hms'
      rcases hps : prevSame st0 h with _ | j
      · rw [markOut_of_not_set_none hset1 ((ul_prevSame prev st0 hv h).trans hps),
          markOut_of_not_set_none hms' hps, ul_name prev st0 hv h]
      · have hj : j < st0.entries.length := lt_trans (prevSame_lt hps) hh
        rw [markOut_of_not_set_some hset1 ((ul_prevSame prev st0 hv h).trans hps),
          markOut_of_not_set_some hms' hps, ul_chainHead prev st0 hv hj]
        exact ih (chainHead st0 j)
          (by have := prevSame_lt hps; have := chainHead_le st0 j; omega)
          (chainHead_lt hj) (contOut_chainHead st0 j)

theorem ul_finalCell (prev : List LogInput) (st0 : LogState) (hv : ValidState st0) {h : ℕ}
    (hh : h < st0.entries.length) (hhead : contOut st0 h = false) :
    finalCell prev (update_link prev st0) h = finalCell prev st0 h := by
  unfold finalCell
  rw [ul_baseCell prev st0 hv hh hhead, ul_markOut prev st0 hv hh hhead]
  rfl

theorem ul_validState (prev : List LogInput) (st0 : LogState) (hv : ValidState st0) :
    ValidState (update_link prev st0) := by
  have hlen := (update_link_spec prev st0 hv).1
  have hheap := (update_link_spec prev st0 hv).2.2.2.1
  refine ⟨?_, ?_, ?_⟩
  · intro i hi
    rw [hlen] at hi
    rw [update_link_entry prev st0 hv hi]
    constructor
    · show planRefOut st0 i < (update_link prev st0).heap.length
      rw [hheap]
      unfold planRefOut
      exact headCell_lt_of hv.1 (chainHead_lt hi) (le_refl _) (contOut_chainHead st0 i)
    · show (st0.entry i).backup_plan < (update_link prev st0).heap.length
      rw [hheap]
      exact lt_of_lt_of_le (hv.1 i hi).2 (Nat.le_add_right _ _)
  · intro h1 h2 hh1 hh2 hc1 hc2 heq
    rw [hlen] at hh1 hh2
    rw [ul_contOut prev st0 hv hh1] at hc1
    rw [ul_contOut prev st0 hv hh2] at hc2
    rw [ul_headCell prev st0 hv hh1 hc1, ul_headCell prev st0 hv hh2 hc2] at heq
    exact hv.2.1 h1 h2 hh1 hh2 hc1 hc2 heq
  · intro i hi halloc
    rw [hlen] at hi
    rw [ul_isAlloc prev st0 hv hi] at halloc
    simp at halloc

theorem entries_ext {s1 s2 : LogState} (hl : s1.entries.length = s2.entries.length)
    (h : ∀ i, i < s1.entries.length → s1.entry i = s2.entry i) : s1.entries = s2.entries := by
  apply List.ext_getElem hl
  intro i h1 h2
  have hi := h i h1
  unfold LogState.entry at hi
  rwa [List.getD_eq_getElem _ _ h1, List.getD_eq_getElem _ _ h2] at hi

theorem heap_ext {s1 s2 : LogState} (hl : s1.heap.length = s2.heap.length)
    (h : ∀ c, c < s1.heap.length → s1.planAt c = s2.planAt c) : s1.heap = s2.heap := by
  apply List.ext_getElem hl
  intro c h1 h2
  have hc := h c h1
  unfold LogState.planAt at hc
  rwa [List.getD_eq_getElem _ _ h1, List.getD_eq_getElem _ _ h2] at hc

theorem state_ext {s1 s2 : LogState} (he : s1.entries = s2.entries) (hh : s1.heap = s2.heap) :
    s1 = s2 := by
  cases s1
  cases s2
  simp only [LogState.mk.injEq]
  exact ⟨he, hh⟩

/-- Running update_link twice gives the same state as running it once:
the pass is idempotent on every well-formed state. -/
theorem update_link_idem (prev : List LogInput) (st0 : LogState) (hv : ValidState st0) :
    update_link prev (update_link prev st0) = update_link prev st0 := by
  have hv1 := ul_validState prev st0 hv
  have hlen1 := (update_link_spec prev st0 hv).1
  have hspec2 := update_link_spec prev (update_link prev st0) hv1
  apply state_ext
  · apply entries_ext hspec2.1
    intro i hi
    rw [hspec2.1, hlen1] at hi
    rw [update_link_entry prev (update_link prev st0) hv1 (by rw [hlen1]; exact hi),
      update_link_entry prev st0 hv hi]
    exact ContinuingLogItem.ext (ul_name prev st0 hv i) rfl rfl rfl
      (ul_contOut prev st0 hv hi) (ul_prevOut prev st0 hv hi) (ul_nextOut prev st0 hv hi)
      (ul_planRefOut prev st0 hv hi) rfl
  · apply heap_ext
    · rw [hspec2.2.2.2.1, ul_allocBefore prev st0 hv (le_of_eq hlen1), Nat.add_zero]
    · intro c hc
      rw [hspec2.2.2.2.1, ul_allocBefore prev st0 hv (le_of_eq hlen1), Nat.add_zero] at hc
      by_cases hex : ∃ h, h < st0.entries.length ∧ contOut st0 h = false ∧ headCell st0 h = c
      · obtain ⟨h, hh, hhead, hcell⟩ := hex
        have h5 := hspec2.2.2.2.2.1 h (by rw [hlen1]; exact hh)
          (by rw [ul_contOut prev st0 hv hh]; exact hhead)
        rw [ul_headCell prev st0 hv hh hhead, hcell] at h5
        rw [h5, ul_finalCell prev st0 hv hh hhead, ← hcell]
        exact ((update_link_spec prev st0 hv).2.2.2.2.1 h hh hhead).symm
      · push_neg at hex
        refine hspec2.2.2.2.2.2 c hc ?_
        intro h hh hhead
        rw [hlen1] at hh
        rw [ul_contOut prev st0 hv hh] at hhead
        rw [ul_headCell prev st0 hv hh hhead]
        exact hex h hh hhead

/-! ## Claim theorems on the reconciliation pass -/

/-- C2: running update_link twice in a row on an unchanged entry list
produces exactly the same state (entries with their previous_log /
next_log links and plan references, and the heap of plan objects) as
running it once, for every freshly constructed entry list. -/
theorem update_link_idempotent (prev : List LogInput) (l : List LogInput) :
    update_link prev (update_link prev (initState l)) = update_link prev (initState l) :=
  update_link_idem prev (initState l) (validState_initState l)

/-- C10: the pass never changes an entry name, start string, end string
or index, and changes an existing plan object at most in its is_marked
field. -/
theorem update_link_frame (prev : List LogInput) (st0 : LogState) (hv : ValidState st0) :
    (∀ i, ((update_link prev st0).entry i).name = (st0.entry i).name ∧
      ((update_link prev st0).entry i).start_str = (st0.entry i).start_str ∧
      ((update_link prev st0).entry i).end_str = (st0.entry i).end_str ∧
      ((update_link prev st0).entry i).index = (st0.entry i).index) ∧
    (∀ c, c < st0.heap.length →
      { (update_link prev st0).planAt c with is_marked := (st0.planAt c).is_marked } =
        st0.planAt c) := by
  constructor
  · intro i
    by_cases hi : i < st0.entries.length
    · rw [update_link_entry prev st0 hv hi]
      exact ⟨rfl, rfl, rfl, rfl⟩
    · rw [(update_link_spec prev st0 hv).2.1 i (le_of_not_lt hi)]
      exact ⟨rfl, rfl, rfl, rfl⟩
  · intro c hc
    by_cases hex : ∃ h, h < st0.entries.length ∧ contOut st0 h = false ∧ headCell st0 h = c
    · obtain ⟨h, hh, hhead, hcell⟩ := hex
      have h5 := (update_link_spec prev st0 hv).2.2.2.2.1 h hh hhead
      rw [hcell] at h5
      have hci : contIn st0 h = false := by
        by_contra hci
        have hci' : contIn st0 h = true := by simpa using hci
        have : headCell st0 h = st0.heap.length + allocBefore st0 h := by
          unfold headCell
          rw [if_pos hci']
        omega
      have hbc : baseCell st0 h = st0.planAt c := by
        unfold baseCell
        rw [if_neg (by simp [hci])]
        have : (st0.entry h).plan = c := by
          rw [← hcell]
          unfold headCell
          rw [if_neg (by simp [hci])]
        rw [this]
      rw [h5, ← hbc]
      rfl
    · push_neg at hex
      rw [(update_link_spec prev st0 hv).2.2.2.2.2 c hc hex]

/-- C3: when the plan object of a chain-starting entry has no manually
set mark, its is_marked after the pass is inherited from the plan of the
nearest preceding same-named entry when one exists, and otherwise from
the first same-named entry of the previous-session archive (false when
there is none). -/
theorem update_link_mark_inheritance (prev : List LogInput) (st0 : LogState)
    (hv : ValidState st0) {h : ℕ} (hh : h < st0.entries.length)
    (hset : ((update_link prev st0).planAt
      (((update_link prev st0).entry h).plan)).is_mark_set = false)
    (hhead : ((update_link prev st0).entry h).is_continued = false) :
    (∀ j, prevSame st0 h = some j →
      ((update_link prev st0).planAt (((update_link prev st0).entry h).plan)).is_marked =
        ((update_link prev st0).planAt (((update_link prev st0).entry j).plan)).is_marked) ∧
    (prevSame st0 h = none →
      ((update_link prev st0).planAt (((update_link prev st0).entry h).plan)).is_marked =
        archiveMark prev (nameOf st0 h)) := by
  have hcont : contOut st0 h = false := by
    rw [update_link_entry prev st0 hv hh] at hhead
    exact hhead
  have hcellM : ∀ x, x < st0.entries.length →
      (update_link prev st0).planAt (((update_link prev st0).entry x).plan) =
        finalCell prev st0 (chainHead st0 x) := by
    intro x hx
    have hpx : ((update_link prev st0).entry x).plan = planRefOut st0 x := by
      rw [update_link_entry prev st0 hv hx]
    rw [hpx]
    exact (update_link_spec prev st0 hv).2.2.2.2.1 (chainHead st0 x) (chainHead_lt hx)
      (contOut_chainHead st0 x)
  have hch : chainHead st0 h = h := chainHead_of_contOut_false hcont
  have hbset : (baseCell st0 h).is_mark_set = false := by
    rw [hcellM h hh, hch] at hset
    exact hset
  constructor
  · intro j hps
    rw [hcellM h hh, hch, hcellM j (lt_trans (prevSame_lt hps) hh)]
    show markOut prev st0 h = markOut prev st0 (chainHead st0 j)
    exact markOut_of_not_set_some hbset hps
  · intro hps
    rw [hcellM h hh, hch]
    show markOut prev st0 h = archiveMark prev (nameOf st0 h)
    exact markOut_of_not_set_none hbset hps

/-! ## Concrete inputs for the witnesses -/

/-- A plan object with no data and no manually set mark. -/
def planBlank : TwoStagePlanItem := ⟨String.mk [], String.mk [], false, false⟩

/-- A plan object manually marked done. -/
def planMarkedSet : TwoStagePlanItem := ⟨String.mk [], String.mk [], true, true⟩

/-- Two same-named entries, the first with a manually set mark. -/
def pairList : List LogInput :=
  [⟨String.mk ['x'], String.mk [], String.mk [], 0, false, planMarkedSet⟩,
   ⟨String.mk ['x'], String.mk [], String.mk [], 1, false, planBlank⟩]

/-- C10 witness: frame conditions evaluated on a concrete list. -/
theorem update_link_frame_witness :
    ValidState (initState pairList) ∧
      (∀ i, ((update_link [] (initState pairList)).entry i).name =
          ((initState pairList).entry i).name ∧
        ((update_link [] (initState pairList)).entry i).start_str =
          ((initState pairList).entry i).start_str ∧
        ((update_link [] (initState pairList)).entry i).end_str =
          ((initState pairList).entry i).end_str ∧
        ((update_link [] (initState pairList)).entry i).index =
          ((initState pairList).entry i).index) ∧
      (∀ c, c < (initState pairList).heap.length →
        { (update_link [] (initState pairList)).planAt c with
            is_marked := ((initState pairList).planAt c).is_marked } =
          (initState pairList).planAt c) :=
  ⟨validState_initState pairList,
    (update_link_frame [] (initState pairList) (validState_initState pairList)).1,
    (update_link_frame [] (initState pairList) (validState_initState pairList)).2⟩

/-- C3 witness: in [A(name x, marked, mark set), B(name x, unmarked,
mark not set)] the pass gives B a plan marked true, inherited from A. -/
theorem update_link_mark_inheritance_witness :
    1 < (initState pairList).entries.length ∧
    ((update_link [] (initState pairList)).planAt
      (((update_link [] (initState pairList)).entry 1).plan)).is_mark_set = false ∧
    ((update_link [] (initState pairList)).entry 1).is_continued = false ∧
    prevSame (initState pairList) 1 = some 0 ∧
    ((update_link [] (initState pairList)).planAt
      (((update_link [] (initState pairList)).entry 1).plan)).is_marked =
      ((update_link [] (initState pairList)).planAt
        (((update_link [] (initState pairList)).entry 0).plan)).is_marked ∧
    ((update_link [] (initState pairList)).planAt
      (((update_link [] (initState pairList)).entry 1).plan)).is_marked = true :=
  ⟨by decide, by decide, by decide, by decide,
    (update_link_mark_inheritance [] (initState pairList) (validState_initState pairList)
      (by decide) (by decide) (by decide)).1 0 (by decide),
    by decide⟩

/-! ## Chain linearity: the output next_log links from a chain head
enumerate exactly the entries sharing that chain's plan cell -/

theorem bool_and_right {a b : Bool} (h : (a && b) = true) : b = true := by
  cases b
  · simp at h
  · rfl

/-- Every same-named position strictly between an entry's chain head and
the entry itself keeps is_continued through the pass: the descent to the
head walks the consecutive same-named predecessors. -/
theorem contOut_between {st0 : LogState} : ∀ {m j : ℕ}, chainHead st0 m < j → j ≤ m →
    nameOf st0 j = nameOf st0 m → contOut st0 j = true := by
  intro m
  induction m using Nat.strong_induction_on with
  | _ m ih =>
    intro j h1 h2 hname
    rcases hps : prevSame st0 m with _ | p
    · rw [chainHead_of_prevSame_none hps] at h1
      omega
    · by_cases hc : contIn st0 m
      · rw [chainHead_of_contOut_true hps hc] at h1
        by_cases hjm : j = m
        · subst hjm
          unfold contOut
          rw [hps, hc]
          rfl
        · have hjlt : j < m := lt_of_le_of_ne h2 hjm
          obtain ⟨hpm, hpname, hpmax⟩ := prevSame_spec hps
          have hjp : j ≤ p := by
            by_contra hgt
            exact hpmax j (by omega) hjlt hname
          exact ih p hpm h1 hjp (hname.trans hpname.symm)
      · have hcf : contIn st0 m = false := by simpa using hc
        rw [chainHead_of_contIn_false hcf] at h1
        omega

/-- A successful forward link: the target is a later in-range entry of
the same chain. -/
theorem nextOut_lt {st0 : LogState} {i j : ℕ} (h : nextOut st0 i = some j) :
    i < j ∧ j < st0.entries.length ∧ chainHead st0 j = chainHead st0 i := by
  unfold nextOut at h
  rcases hns : nextSame st0 i with _ | t
  · simp only [hns] at h
    cases h
  · simp only [hns] at h
    by_cases hc : contOut st0 t = true
    · rw [if_pos hc] at h
      cases h
      obtain ⟨hjn, hij, _, _⟩ := nextSame_spec hns
      have hpsj : prevSame st0 j = some i := nextSame_prevSame hns
      have hcij : contIn st0 j = true := by
        unfold contOut at hc
        exact bool_and_right hc
      exact ⟨hij, hjn, chainHead_of_contOut_true hpsj hcij⟩
    · rw [if_neg hc] at h
      cases h

/-- If a later entry m belongs to the chain of i, the step for the next
same-named entry after i links it into the chain: nextOut i is a chain
member between i and m. -/
theorem nextOut_reach {st0 : LogState} {i m : ℕ} (him : i < m) (hm : m < st0.entries.length)
    (hch : chainHead st0 m = chainHead st0 i) :
    ∃ j, nextOut st0 i = some j ∧ i < j ∧ j ≤ m ∧ chainHead st0 j = chainHead st0 i := by
  have hname : nameOf st0 m = nameOf st0 i :=
    (nameOf_chainHead st0 m).symm.trans (by rw [hch]; exact nameOf_chainHead st0 i)
  have hsome := @nextSame_isSome_of st0 i m him hm hname
  rcases hns : nextSame st0 i with _ | j
  · rw [hns] at hsome
    cases hsome
  · obtain ⟨hjn, hij, hjname, hjmin⟩ := nextSame_spec hns
    have hjm : j ≤ m := by
      by_contra hgt
      exact hjmin m him (by omega) hname
    have hcout : contOut st0 j = true := by
      refine contOut_between (m := m) ?_ hjm (hjname.trans hname.symm)
      rw [hch]
      have := chainHead_le st0 i
      omega
    have hno : nextOut st0 i = some j := by
      unfold nextOut
      simp only [hns]
      rw [if_pos hcout]
    have hpsj : prevSame st0 j = some i := nextSame_prevSame hns
    have hcij : contIn st0 j = true := by
      unfold contOut at hcout
      exact bool_and_right hcout
    exact ⟨j, hno, hij, hjm, chainHead_of_contOut_true hpsj hcij⟩

/-- The spec-side chain trace: follow nextOut from a position. -/
def traceF (st0 : LogState) : ℕ → ℕ → List ℕ
  | 0, i => [i]
  | fuel + 1, i =>
    match nextOut st0 i with
    | some j => i :: traceF st0 fuel j
    | none => [i]

theorem traceF_ne_nil (st0 : LogState) (fuel i : ℕ) : traceF st0 fuel i ≠ [] := by
  cases fuel with
  | zero => simp [traceF]
  | succ f =>
    unfold traceF
    rcases hno : nextOut st0 i with _ | j <;> simp

/-- Membership in a trace with sufficient fuel: exactly the chain
members from the starting position on. -/
theorem traceF_mem {st0 : LogState} : ∀ (fuel : ℕ) {i m : ℕ}, i < st0.entries.length →
    st0.entries.length - i ≤ fuel →
    (m ∈ traceF st0 fuel i ↔
      i ≤ m ∧ m < st0.entries.length ∧ chainHead st0 m = chainHead st0 i) := by
  intro fuel
  induction fuel with
  | zero =>
    intro i m hi hf
    omega
  | succ f ih =>
    intro i m hi hf
    rcases hno : nextOut st0 i with _ | j
    · unfold traceF
      simp only [hno]
      simp only [List.mem_singleton]
      constructor
      · rintro rfl
        exact ⟨le_refl m, hi, rfl⟩
      · rintro ⟨him, hm, hch⟩
        by_contra hne
        have hlt : i < m := lt_of_le_of_ne him (fun he => hne he.symm)
        obtain ⟨j, hj, _⟩ := nextOut_reach hlt hm hch
        rw [hno] at hj
        cases hj
    · unfold traceF
      simp only [hno]
      obtain ⟨hij, hjn, hchj⟩ := nextOut_lt hno
      simp only [List.mem_cons]
      constructor
      · rintro (rfl | hmem)
        · exact ⟨le_refl m, hi, rfl⟩
        · obtain ⟨hjm, hm, hch⟩ := (ih hjn (by omega)).mp hmem
          exact ⟨by omega, hm, hch.trans hchj⟩
      · rintro ⟨him, hm, hch⟩
        by_cases hmi : m = i
        · exact Or.inl hmi
        · have hlt : i < m := lt_of_le_of_ne him (fun he => hmi he.symm)
          obtain ⟨t, ht, hit, htm, htch⟩ := nextOut_reach hlt hm hch
          rw [hno] at ht
          cases ht
          exact Or.inr ((ih hjn (by omega)).mpr ⟨htm, hm, hch.trans hchj.symm⟩)

/-- A trace never visits a position twice. -/
theorem traceF_nodup {st0 : LogState} : ∀ (fuel : ℕ) {i : ℕ}, i < st0.entries.length →
    st0.entries.length - i ≤ fuel → (traceF st0 fuel i).Nodup := by
  intro fuel
  induction fuel with
  | zero =>
    intro i hi hf
    omega
  | succ f ih =>
    intro i hi hf
    unfold traceF
    rcases hno : nextOut st0 i with _ | j
    · simp [hno]
    · simp only [hno]
      obtain ⟨hij, hjn, _⟩ := nextOut_lt hno
      rw [List.nodup_cons]
      constructor
      · intro hmem
        have := ((traceF_mem f hjn (by omega)).mp hmem).1
        omega
      · exact ih hjn (by omega)

/-- A trace ends at exactly one tail: its last element, which has no
forward link. -/
theorem traceF_last {st0 : LogState} : ∀ (fuel : ℕ) {i : ℕ}, i < st0.entries.length →
    st0.entries.length - i ≤ fuel →
    ∃ t, (traceF st0 fuel i).getLast? = some t ∧ nextOut st0 t = none ∧
      t ∈ traceF st0 fuel i := by
  intro fuel
  induction fuel with
  | zero =>
    intro i hi hf
    omega
  | succ f ih =>
    intro i hi hf
    unfold traceF
    rcases hno : nextOut st0 i with _ | j
    · simp only [hno]
      exact ⟨i, rfl, hno, by simp⟩
    · simp only [hno]
      obtain ⟨hij, hjn, _⟩ := nextOut_lt hno
      obtain ⟨t, hlast, htno, htmem⟩ := ih hjn (by omega)
      refine ⟨t, ?_, htno, List.mem_cons_of_mem i htmem⟩
      obtain ⟨x, xs, hxs⟩ := List.exists_cons_of_ne_nil (traceF_ne_nil st0 f j)
      rw [hxs]
      rw [hxs] at hlast
      rw [List.getLast?_cons_cons]
      exact hlast

/-- Following the next_log links of a state from a position, with fuel:
the entry positions visited by the tail() traversal. -/
def followNext (st : LogState) : ℕ → ℕ → List ℕ
  | 0, i => [i]
  | fuel + 1, i =>
    match (st.entry i).next_log with
    | some j => i :: followNext st fuel j
    | none => [i]

/-- Following the actual next_log links of the output state coincides
with the spec-side trace. -/
theorem followNext_eq_traceF (prev : List LogInput) (st0 : LogState) (hv : ValidState st0) :
    ∀ (fuel : ℕ) {i : ℕ}, i < st0.entries.length →
    followNext (update_link prev st0) fuel i = traceF st0 fuel i := by
  intro fuel
  induction fuel with
  | zero =>
    intro i _
    rfl
  | succ f ih =>
    intro i hi
    have hnl : ((update_link prev st0).entry i).next_log = nextOut st0 i := by
      rw [update_link_entry prev st0 hv hi]
    unfold followNext traceF
    rw [hnl]
    rcases hno : nextOut st0 i with _ | j
    · simp only [hno]
    · simp only [hno]
      rw [ih (nextOut_lt hno).2.1]

/-- C1: after a pass, following next_log from any chain-starting entry
visits no entry twice, ends at exactly one tail (the last visited entry,
which has no next_log), and visits exactly as many entries as there are
list positions referencing that chain's plan object. -/
theorem update_link_chain_linear (prev : List LogInput) (st0 : LogState) (hv : ValidState st0)
    {h : ℕ} (hh : h < st0.entries.length)
    (hhead : ((update_link prev st0).entry h).is_continued = false) :
    (followNext (update_link prev st0) st0.entries.length h).Nodup ∧
    (∃ t, (followNext (update_link prev st0) st0.entries.length h).getLast? = some t ∧
      ((update_link prev st0).entry t).next_log = none ∧
      t ∈ followNext (update_link prev st0) st0.entries.length h) ∧
    (followNext (update_link prev st0) st0.entries.length h).length =
      ((Finset.range st0.entries.length).filter
        (fun i => ((update_link prev st0).entry i).plan =
          ((update_link prev st0).entry h).plan)).card := by
  have hcont : contOut st0 h = false := by
    rw [update_link_entry prev st0 hv hh] at hhead
    exact hhead
  have hch : chainHead st0 h = h := chainHead_of_contOut_false hcont
  have hbr := followNext_eq_traceF prev st0 hv st0.entries.length hh
  have hfuel : st0.entries.length - h ≤ st0.entries.length := by omega
  have hmem := fun m => @traceF_mem st0 st0.entries.length h m hh hfuel
  refine ⟨?_, ?_, ?_⟩
  · rw [hbr]
    exact traceF_nodup _ hh hfuel
  · rw [hbr]
    obtain ⟨t, h1, h2, h3⟩ := @traceF_last st0 st0.entries.length h hh hfuel
    refine ⟨t, h1, ?_, h3⟩
    have htn : t < st0.entries.length := ((hmem t).mp h3).2.1
    rw [update_link_entry prev st0 hv htn]
    exact h2
  · rw [hbr]
    have hplan : ∀ i, i < st0.entries.length →
        (((update_link prev st0).entry i).plan = ((update_link prev st0).entry h).plan ↔
          chainHead st0 i = h) := by
      intro i hi
      rw [update_link_entry prev st0 hv hi, update_link_entry prev st0 hv hh]
      show planRefOut st0 i = planRefOut st0 h ↔ chainHead st0 i = h
      unfold planRefOut
      rw [hch]
      constructor
      · intro he
        exact hv.2.1 (chainHead st0 i) h (chainHead_lt hi) hh (contOut_chainHead st0 i) hcont he
      · intro he
        rw [he]
    have hnd := @traceF_nodup st0 st0.entries.length h hh hfuel
    have hfs : (traceF st0 st0.entries.length h).toFinset =
        (Finset.range st0.entries.length).filter
          (fun i => ((update_link prev st0).entry i).plan =
            ((update_link prev st0).entry h).plan) := by
      apply Finset.ext
      intro m
      rw [List.mem_toFinset, Finset.mem_filter, Finset.mem_range, hmem m]
      constructor
      · rintro ⟨hhm, hm, hcm⟩
        exact ⟨hm, (hplan m hm).mpr (by rw [hcm, hch])⟩
      · rintro ⟨hm, hp⟩
        have hcm := (hplan m hm).mp hp
        refine ⟨?_, hm, by rw [hcm, hch]⟩
        have := chainHead_le st0 m
        omega
    rw [← List.toFinset_card_of_nodup hnd, hfs]

/-- Two same-named entries, the second marked continued: after the pass
they form one chain of length two. -/
def chainList : List LogInput :=
  [⟨String.mk ['x'], String.mk [], String.mk [], 0, false, planBlank⟩,
   ⟨String.mk ['x'], String.mk [], String.mk [], 1, true, planBlank⟩]

/-- C1 witness: the chain properties evaluated on a concrete two-entry
chain starting at position 0. -/
theorem update_link_chain_linear_witness :
    ValidState (initState chainList) ∧
    0 < (initState chainList).entries.length ∧
    ((update_link [] (initState chainList)).entry 0).is_continued = false ∧
    ((followNext (update_link [] (initState chainList))
        (initState chainList).entries.length 0).Nodup ∧
      (∃ t, (followNext (update_link [] (initState chainList))
          (initState chainList).entries.length 0).getLast? = some t ∧
        ((update_link [] (initState chainList)).entry t).next_log = none ∧
        t ∈ followNext (update_link [] (initState chainList))
          (initState chainList).entries.length 0) ∧
      (followNext (update_link [] (initState chainList))
          (initState chainList).entries.length 0).length =
        ((Finset.range (initState chainList).entries.length).filter
          (fun i => ((update_link [] (initState chainList)).entry i).plan =
            ((update_link [] (initState chainList)).entry 0).plan)).card) :=
  ⟨validState_initState chainList, by decide, by decide,
    update_link_chain_linear [] (initState chainList) (validState_initState chainList)
      (by decide) (by decide)⟩

/-! ## Effective duration -/

theorem total_duration_succ (st : LogState) (fuel i : ℕ) :
    st.total_duration (fuel + 1) i =
      durationOf (st.entry i).start_str (st.entry i).end_str +
        (match (st.entry i).previous_log with
         | none => 0
         | some p => st.total_duration fuel p) := rfl

/-- A two-entry chain with distinct actual durations (30 and 45 minutes)
and no stored last_duration. -/
def durList : List LogInput :=
  [⟨String.mk ['w'], String.mk ['0','9',':','0','0'], String.mk ['0','9',':','3','0'], 0, false,
    planBlank⟩,
   ⟨String.mk ['w'], String.mk ['1','0',':','0','0'], String.mk ['1','0',':','4','5'], 1, true,
    planBlank⟩]

/-- C4 counterexample: with no parseable last_duration, the effective
duration of the chain head is its own prefix total (30 min), not the
tail's whole-chain total (75 min). -/
theorem effective_duration_ne_tail_total :
    (update_link [] (initState durList)).effective_duration 0 ≠
      (update_link [] (initState durList)).total_duration
        (update_link [] (initState durList)).entries.length
        ((update_link [] (initState durList)).tail
          (update_link [] (initState durList)).entries.length 0) := by
  have hld : parse_duration (((update_link [] (initState durList)).planAt
      (((update_link [] (initState durList)).entry 0).plan)).last_duration) = none := by
    decide
  have hlen : (update_link [] (initState durList)).entries.length = 2 := by decide
  have htail : (update_link [] (initState durList)).tail
      (update_link [] (initState durList)).entries.length 0 = 1 := by decide
  have hp1 : ((update_link [] (initState durList)).entry 1).previous_log = some 0 := by decide
  have hp0 : ((update_link [] (initState durList)).entry 0).previous_log = none := by decide
  have hs0 : ((update_link [] (initState durList)).entry 0).start_str =
      String.mk ['0', '9', ':', '0', '0'] := by decide
  have he0 : ((update_link [] (initState durList)).entry 0).end_str =
      String.mk ['0', '9', ':', '3', '0'] := by decide
  have hs1 : ((update_link [] (initState durList)).entry 1).start_str =
      String.mk ['1', '0', ':', '0', '0'] := by decide
  have he1 : ((update_link [] (initState durList)).entry 1).end_str =
      String.mk ['1', '0', ':', '4', '5'] := by decide
  have hpt1 : parse_time (String.mk ['0', '9', ':', '0', '0']) = some (9, 0) := by decide
  have hpt2 : parse_time (String.mk ['0', '9', ':', '3', '0']) = some (9, 30) := by decide
  have hpt3 : parse_time (String.mk ['1', '0', ':', '0', '0']) = some (10, 0) := by decide
  have hpt4 : parse_time (String.mk ['1', '0', ':', '4', '5']) = some (10, 45) := by decide
  have hd0 : durationOf (String.mk ['0', '9', ':', '0', '0'])
      (String.mk ['0', '9', ':', '3', '0']) = 1800 := by
    simp [durationOf, LogItem.ofStrings, LogItem.duration, hpt1, hpt2, time_diff]
    norm_num
  have hd1 : durationOf (String.mk ['1', '0', ':', '0', '0'])
      (String.mk ['1', '0', ':', '4', '5']) = 2700 := by
    simp [durationOf, LogItem.ofStrings, LogItem.duration, hpt3, hpt4, time_diff]
    norm_num
  have he_0 : (update_link [] (initState durList)).effective_duration 0 =
      (update_link [] (initState durList)).total_duration
        (update_link [] (initState durList)).entries.length 0 := by
    unfold LogState.effective_duration
    simp only [hld]
  have ht0 : (update_link [] (initState durList)).total_duration 2 0 = 1800 := by
    rw [show (2 : ℕ) = 1 + 1 from rfl, total_duration_succ]
    simp only [hp0, hs0, he0]
    rw [hd0]
    norm_num
  have ht1 : (update_link [] (initState durList)).total_duration 2 1 = 4500 := by
    rw [show (2 : ℕ) = 1 + 1 from rfl, total_duration_succ]
    simp only [hp1, hs1, he1]
    rw [show (1 : ℕ) = 0 + 1 from rfl, total_duration_succ]
    simp only [hp0, hs0, he0]
    rw [hd0, hd1]
    norm_num
  rw [he_0, htail, hlen, ht0, ht1]
  norm_num

/-- In a reconciled state the total_duration of an entry is the sum of
the actual durations of its chain's members up to and including the
entry itself. -/
theorem total_duration_reconciled (prev : List LogInput) (st0 : LogState) (hv : ValidState st0) :
    ∀ (fuel : ℕ) {i : ℕ}, i < st0.entries.length → i < fuel →
    (update_link prev st0).total_duration fuel i =
      ∑ m ∈ (Finset.range (i + 1)).filter (fun m => chainHead st0 m = chainHead st0 i),
        durationOf (st0.entry m).start_str (st0.entry m).end_str := by
  intro fuel
  induction fuel with
  | zero =>
    intro i hi hf
    omega
  | succ f ih =>
    intro i hi hf
    rw [total_duration_succ]
    have hmeta := update_link_entry prev st0 hv hi
    have hsp : ((update_link prev st0).entry i).start_str = (st0.entry i).start_str := by
      rw [hmeta]
    have hep : ((update_link prev st0).entry i).end_str = (st0.entry i).end_str := by
      rw [hmeta]
    have hpl : ((update_link prev st0).entry i).previous_log = prevOut st0 i := by
      rw [hmeta]
    rw [hsp, hep, hpl]
    by_cases hc : contOut st0 i = true
    · have hcc := hc
      unfold contOut at hcc
      rcases hps : prevSame st0 i with _ | j
      · rw [hps] at hcc
        simp at hcc
      · rw [hps] at hcc
        have hci : contIn st0 i = true := bool_and_right hcc
        have hpo : prevOut st0 i = some j := by
          unfold prevOut
          rw [if_pos hc, hps]
        simp only [hpo]
        have hj : j < i := prevSame_lt hps
        have hchij : chainHead st0 i = chainHead st0 j := chainHead_of_contOut_true hps hci
        rw [ih (lt_trans hj hi) (by omega)]
        simp only [hchij]
        have hset : (Finset.range (i + 1)).filter
              (fun m => chainHead st0 m = chainHead st0 j) =
            insert i ((Finset.range (j + 1)).filter
              (fun m => chainHead st0 m = chainHead st0 j)) := by
          apply Finset.ext
          intro m
          rw [Finset.mem_insert, Finset.mem_filter, Finset.mem_filter, Finset.mem_range,
            Finset.mem_range]
          constructor
          · rintro ⟨hm, hq⟩
            by_cases hmi : m = i
            · exact Or.inl hmi
            · refine Or.inr ⟨?_, hq⟩
              have hmlt : m < i := by omega
              by_contra hgt
              have hname : nameOf st0 m = nameOf st0 i := by
                rw [← nameOf_chainHead st0 m, hq, ← hchij, nameOf_chainHead st0 i]
              exact (prevSame_spec hps).2.2 m (by omega) hmlt hname
          · rintro (rfl | ⟨hm, hq⟩)
            · exact ⟨by omega, hchij⟩
            · exact ⟨by omega, hq⟩
        rw [hset, Finset.sum_insert (by
          rw [Finset.mem_filter, Finset.mem_range]
          rintro ⟨hm, _⟩
          omega)]
    · have hcf : contOut st0 i = false := by simpa using hc
      have hpo : prevOut st0 i = none := by
        unfold prevOut
        rw [if_neg hc]
      simp only [hpo]
      have hch : chainHead st0 i = i := chainHead_of_contOut_false hcf
      have hset : (Finset.range (i + 1)).filter
            (fun m => chainHead st0 m = chainHead st0 i) = {i} := by
        apply Finset.ext
        intro m
        rw [Finset.mem_filter, Finset.mem_range, Finset.mem_singleton]
        constructor
        · rintro ⟨hm, hq⟩
          rw [hch] at hq
          have := chainHead_le st0 m
          omega
        · rintro rfl
          exact ⟨by omega, rfl⟩
      rw [hset, Finset.sum_singleton]
      norm_num

/-- C4 amended: effective_duration is the parsed last_duration of the
chain's plan when that string parses, and otherwise the entry's own
total_duration: the sum of the actual durations of the chain members up
to and including the entry itself, not the tail's whole-chain total. -/
theorem effective_duration_spec (prev : List LogInput) (st0 : LogState) (hv : ValidState st0)
    {i : ℕ} (hi : i < st0.entries.length) :
    (update_link prev st0).effective_duration i =
      match parse_duration (((update_link prev st0).planAt
          (((update_link prev st0).entry i).plan)).last_duration) with
      | some d => d
      | none => ∑ m ∈ (Finset.range (i + 1)).filter
          (fun m => chainHead st0 m = chainHead st0 i),
          durationOf (st0.entry m).start_str (st0.entry m).end_str := by
  unfold LogState.effective_duration
  rcases hpd : parse_duration (((update_link prev st0).planAt
      (((update_link prev st0).entry i).plan)).last_duration) with _ | d
  · simp only [hpd]
    rw [(update_link_spec prev st0 hv).1]
    exact total_duration_reconciled prev st0 hv st0.entries.length hi hi
  · simp only [hpd]

/-- C4 witness: the amended characterization evaluated at the second
entry of the concrete two-entry chain. -/
theorem effective_duration_spec_witness :
    ValidState (initState durList) ∧
    1 < (initState durList).entries.length ∧
    (update_link [] (initState durList)).effective_duration 1 =
      match parse_duration (((update_link [] (initState durList)).planAt
          (((update_link [] (initState durList)).entry 1).plan)).last_duration) with
      | some d => d
      | none => ∑ m ∈ (Finset.range (1 + 1)).filter
          (fun m => chainHead (initState durList) m = chainHead (initState durList) 1),
          durationOf ((initState durList).entry m).start_str
            ((initState durList).entry m).end_str :=
  ⟨validState_initState durList, by decide,
    effective_duration_spec [] (initState durList) (validState_initState durList) (by decide)⟩

/-! ## Undo and redo -/

/-- The controller state relevant to undo and redo: the live list with
its plan heap, the previous-session archive and the two stacks.  A stack
element is copy.deepcopy(self.logs): the heap-carrying LogState value
captures the deep copy exactly. -/
structure Controller where
  logs : LogState
  previous_logs : List LogInput
  undo_stack : List LogState
  redo_stack : List LogState
deriving DecidableEq, Repr, Inhabited

/-- PlannerLoggerController.register_undo: optionally clear the redo
stack, then push a deep copy of the current list. -/
def register_undo (c : Controller) (clear_redo : Bool) : Controller :=
  { c with redo_stack := if clear_redo then [] else c.redo_stack, undo_stack := c.undo_stack ++ [c.logs] }

/-- PlannerLoggerController.register_redo. -/
def register_redo (c : Controller) : Controller :=
  { c with redo_stack := c.redo_stack ++ [c.logs] }

/-- on_undo_button_click: when the undo stack is nonempty, push the
current list onto the redo stack, pop the undo stack as the new current
list and re-run the reconciliation pass (update(RESET)). -/
def on_undo_button_click (c : Controller) : Controller :=
  match c.undo_stack.getLast? with
  | none => c
  | some s =>
    let c1 := register_redo c
    { c1 with logs := update_link c1.previous_logs s, undo_stack := c1.undo_stack.dropLast }

/-- on_redo_button_click: when the redo stack is nonempty, push the
current list onto the undo stack without clearing redo, pop the redo
stack as the new current list and re-run the reconciliation pass. -/
def on_redo_button_click (c : Controller) : Controller :=
  match c.redo_stack.getLast? with
  | none => c
  | some s =>
    let c1 := register_undo c false
    { c1 with logs := update_link c1.previous_logs s, redo_stack := c1.redo_stack.dropLast }

/-- C7: starting from a controller whose current list is reconciled,
register_undo followed by an arbitrary mutation (to any other reconciled
list) and undo restores exactly the pre-mutation list, pushes the
pre-undo list onto the redo stack and pops the undo stack; a subsequent
redo restores exactly the mutated list; undo is a no-op when the undo
stack is empty. -/
theorem undo_redo_round_trip (c0 : Controller) (s0 m0 : LogState)
    (hv0 : ValidState s0) (hvm : ValidState m0)
    (hc0 : c0.logs = update_link c0.previous_logs s0) :
    (on_undo_button_click { register_undo c0 true with logs := update_link c0.previous_logs m0 }).logs = c0.logs ∧
    (on_undo_button_click { register_undo c0 true with logs := update_link c0.previous_logs m0 }).redo_stack = [update_link c0.previous_logs m0] ∧
    (on_undo_button_click { register_undo c0 true with logs := update_link c0.previous_logs m0 }).undo_stack = c0.undo_stack ∧
    (on_redo_button_click (on_undo_button_click { register_undo c0 true with logs := update_link c0.previous_logs m0 })).logs = update_link c0.previous_logs m0 ∧
    (∀ c : Controller, c.undo_stack = [] → on_undo_button_click c = c) := by
  have hg : ({ register_undo c0 true with logs := update_link c0.previous_logs m0 } : Controller).undo_stack.getLast? = some c0.logs := by
    show (c0.undo_stack ++ [c0.logs]).getLast? = some c0.logs
    exact List.getLast?_concat _
  have h3 : on_undo_button_click { register_undo c0 true with logs := update_link c0.previous_logs m0 } = { logs := update_link c0.previous_logs c0.logs, previous_logs := c0.previous_logs, undo_stack := c0.undo_stack, redo_stack := [update_link c0.previous_logs m0] } := by
    unfold on_undo_button_click
    simp only [hg]
    show ({ logs := update_link c0.previous_logs c0.logs, previous_logs := c0.previous_logs, undo_stack := (c0.undo_stack ++ [c0.logs]).dropLast, redo_stack := [update_link c0.previous_logs m0] } : Controller) = _
    rw [List.dropLast_concat]
  refine ⟨?_, ?_, ?_, ?_, ?_⟩
  · rw [h3]
    show update_link c0.previous_logs c0.logs = c0.logs
    rw [hc0]
    exact update_link_idem c0.previous_logs s0 hv0
  · rw [h3]
  · rw [h3]
  · rw [h3]
    unfold on_redo_button_click
    simp only [List.getLast?_singleton]
    show update_link c0.previous_logs (update_link c0.previous_logs m0) =
      update_link c0.previous_logs m0
    exact update_link_idem c0.previous_logs m0 hvm
  · intro c hc
    unfold on_undo_button_click
    rw [hc]
    rfl

/-- A controller holding the reconciled two-entry list, ready for an
undo round trip. -/
def undoDemo : Controller :=
  ⟨update_link [] (initState pairList), [], [], []⟩

/-- C7 witness: the undo/redo round trip on concrete lists. -/
theorem undo_redo_round_trip_witness :
    ValidState (initState pairList) ∧
    ValidState (initState chainList) ∧
    undoDemo.logs = update_link undoDemo.previous_logs (initState pairList) ∧
    ((on_undo_button_click { register_undo undoDemo true with logs := update_link undoDemo.previous_logs (initState chainList) }).logs = undoDemo.logs ∧
    (on_undo_button_click { register_undo undoDemo true with logs := update_link undoDemo.previous_logs (initState chainList) }).redo_stack = [update_link undoDemo.previous_logs (initState chainList)] ∧
    (on_undo_button_click { register_undo undoDemo true with logs := update_link undoDemo.previous_logs (initState chainList) }).undo_stack = undoDemo.undo_stack ∧
    (on_redo_button_click (on_undo_button_click { register_undo undoDemo true with logs := update_link undoDemo.previous_logs (initState chainList) })).logs = update_link undoDemo.previous_logs (initState chainList) ∧
    (∀ c : Controller, c.undo_stack = [] → on_undo_button_click c = c)) :=
  ⟨validState_initState pairList, validState_initState chainList, rfl,
    undo_redo_round_trip undoDemo (initState pairList) (initState chainList)
      (validState_initState pairList) (validState_initState chainList) rfl⟩

/-! ## Persistence -/

/-- A JSON value as built by save and read back by the loader. -/
inductive JValue where
  | jstr : String → JValue
  | jint : ℤ → JValue
  | jbool : Bool → JValue
  | jarr : List JValue → JValue
  | jobj : List (String × JValue) → JValue
deriving Inhabited

/-- The plan_dic dictionary of save. -/
def plan_dic (p : TwoStagePlanItem) : JValue :=
  .jobj [("first_duration", .jstr p.first_duration), ("last_duration", .jstr p.last_duration),
    ("is_marked", .jbool p.is_marked), ("is_mark_set", .jbool p.is_mark_set)]

/-- The log_dic dictionary of save for a live entry; the plan contents
come from the entry's heap cell. -/
def log_dic (st : LogState) (e : ContinuingLogItem) : JValue :=
  .jobj [("name", .jstr e.name), ("start_str", .jstr e.start_str), ("end_str", .jstr e.end_str),
    ("index", .jint e.index), ("is_continued", .jbool e.is_continued),
    ("plan", plan_dic (st.planAt e.plan))]

/-- log_dic for an archived entry of previous_logs. -/
def log_dic_input (a : LogInput) : JValue :=
  .jobj [("name", .jstr a.name), ("start_str", .jstr a.start_str), ("end_str", .jstr a.end_str),
    ("index", .jint a.index), ("is_continued", .jbool a.is_continued),
    ("plan", plan_dic a.plan)]

/-- The root dictionary written by PlannerLoggerController.save. -/
def save_root (st : LogState) (previous_logs : List LogInput) (continue_after_break : Bool)
    (break_title highlights : String) : JValue :=
  .jobj [("logs", .jarr (st.entries.map (log_dic st))),
    ("previous_logs", .jarr (previous_logs.map log_dic_input)),
    ("continue_after_break", .jbool continue_after_break),
    ("break_title", .jstr break_title),
    ("highlights", .jstr highlights)]

/-- The keys of a JSON object. -/
def jKeys : JValue → List String
  | .jobj kvs => kvs.map Prod.fst
  | _ => []

/-- Python dict access, None when the key is absent. -/
def jLookup (v : JValue) (k : String) : Option JValue :=
  match v with
  | .jobj kvs => (kvs.find? fun kv => decide (kv.1 = k)).map Prod.snd
  | _ => none

/-- The parse_log closure of the loader: rebuild one entry's constructor
data from its dictionary, None when a key is missing (KeyError).  The
rebuilt entry is fresh constructor data: the previous/next links are not
read back, they are rebuilt by the reconciliation pass. -/
def parse_log (v : JValue) : Option LogInput :=
  match jLookup v "name", jLookup v "start_str", jLookup v "end_str", jLookup v "index",
      jLookup v "is_continued", jLookup v "plan" with
  | some (.jstr name), some (.jstr start_str), some (.jstr end_str), some (.jint index),
      some (.jbool is_continued), some plan_j =>
    match jLookup plan_j "first_duration", jLookup plan_j "last_duration",
        jLookup plan_j "is_marked", jLookup plan_j "is_mark_set" with
    | some (.jstr fd), some (.jstr ld), some (.jbool im), some (.jbool ims) =>
      some ⟨name, start_str, end_str, index, is_continued, ⟨fd, ld, im, ims⟩⟩
    | _, _, _, _ => none
  | _, _, _, _, _, _ => none

/-- The loader's handling of a list field: parse each element, keep the
entries that parse. -/
def load_logs (root : JValue) (key : String) : Option (List LogInput) :=
  match jLookup root key with
  | some (.jarr l) => some (l.filterMap parse_log)
  | _ => none

theorem parse_log_log_dic (st : LogState) (e : ContinuingLogItem) :
    parse_log (log_dic st e) =
      some ⟨e.name, e.start_str, e.end_str, e.index, e.is_continued, st.planAt e.plan⟩ := rfl

theorem parse_log_log_dic_input (a : LogInput) : parse_log (log_dic_input a) = some a := rfl

theorem filterMap_parse_log (st : LogState) : ∀ es : List ContinuingLogItem,
    (es.map (log_dic st)).filterMap parse_log = es.map fun e =>
      (⟨e.name, e.start_str, e.end_str, e.index, e.is_continued, st.planAt e.plan⟩ : LogInput)
  | [] => rfl
  | e :: es => by
    rw [List.map_cons, List.filterMap_cons, parse_log_log_dic st e, List.map_cons,
      filterMap_parse_log st es]

theorem filterMap_parse_log_input : ∀ as : List LogInput,
    (as.map log_dic_input).filterMap parse_log = as
  | [] => rfl
  | a :: as => by
    rw [List.map_cons, List.filterMap_cons, parse_log_log_dic_input a,
      filterMap_parse_log_input as]

/-- C8 counterexample: the persisted root dictionary has no
bonus_formula, plan_time or previous_bonus key. -/
theorem save_root_no_bonus_fields :
    ("bonus_formula" ∉ jKeys (save_root ⟨[], []⟩ [] false (String.mk []) (String.mk []))) ∧
    ("plan_time" ∉ jKeys (save_root ⟨[], []⟩ [] false (String.mk []) (String.mk []))) ∧
    ("previous_bonus" ∉ jKeys (save_root ⟨[], []⟩ [] false (String.mk []) (String.mk []))) := by
  refine ⟨?_, ?_, ?_⟩ <;> simp [save_root, jKeys]

/-- C8 amended: the persisted document contains exactly the keys logs,
previous_logs, continue_after_break, break_title and highlights (none of
the bonus text fields), and the loader reads the five fields back: every
saved entry and every archived entry is recovered exactly. -/
theorem save_root_fields (st : LogState) (prevL : List LogInput) (c : Bool) (bt hl : String) :
    jKeys (save_root st prevL c bt hl) =
      ["logs", "previous_logs", "continue_after_break", "break_title", "highlights"] ∧
    jLookup (save_root st prevL c bt hl) "bonus_formula" = none ∧
    jLookup (save_root st prevL c bt hl) "plan_time" = none ∧
    jLookup (save_root st prevL c bt hl) "previous_bonus" = none ∧
    load_logs (save_root st prevL c bt hl) "logs" =
      some (st.entries.map fun e =>
        ⟨e.name, e.start_str, e.end_str, e.index, e.is_continued, st.planAt e.plan⟩) ∧
    load_logs (save_root st prevL c bt hl) "previous_logs" = some prevL ∧
    jLookup (save_root st prevL c bt hl) "continue_after_break" = some (.jbool c) ∧
    jLookup (save_root st prevL c bt hl) "break_title" = some (.jstr bt) ∧
    jLookup (save_root st prevL c bt hl) "highlights" = some (.jstr hl) := by
  refine ⟨rfl, rfl, rfl, rfl, ?_, ?_, rfl, rfl, rfl⟩
  · show some ((st.entries.map (log_dic st)).filterMap parse_log) = _
    rw [filterMap_parse_log st st.entries]
  · show some ((prevL.map log_dic_input).filterMap parse_log) = _
    rw [filterMap_parse_log_input prevL]

end PlannerLogger
